import Mathlib

/-!
Verification of the settlement-ledger and windowed-transaction-cache core of
the MyFinTracker application.

The development shallowly embeds the relevant source files:

* `src/db/database.ts` — the record schema (transactions, settlements,
  categories) is embedded as Lean structures; a `Store` is the in-memory
  content of the relational tables.
* `src/repositories/TransactionRepository.ts` — the SQL aggregate queries
  (`getTransactionCompensationStatus`, `getTotalByType`, `getBalance`,
  `getExpensesByCategory`) are embedded as pure functions over a `Store`,
  translating each SQL aggregation (LEFT JOIN on settlements, GROUP BY,
  HAVING, SUM, COALESCE) into the corresponding list computation.
* `src/repositories/base/IRepository.ts` and the write-path validators.
* `src/repositories/RepositoryFactory.ts` — `addSettlement`.
* `src/repositories/CategoryRepository.ts` — `update` (SET-clause building).
* `src/utils/TransactionCache.ts` — the windowed cache, embedded with a JS
  `Map` modelled as an insertion-ordered association list.

Monetary amounts are modelled as exact rationals (the source stores JS
doubles; the claims under audit are exact-arithmetic identities).  Indices
and counts of the cache are modelled as integers (JS numbers used as array
indices).  External JS runtime facilities used by the code (`Date` parsing,
`new Date().toISOString()`, `uuidv4()`) are supplied through a `JsEnv`
parameter, exactly as the SQLite handle is an external collaborator.
-/

namespace MyFinTracker

/-- A row of the `transactions` table (`Transaction` in `db/database.ts`).
The interface's optional fields (`created_at`, `updated_at` and the joined
display fields `type_name`, `category_name`, `currency_symbol`) are
omitted: no embedded operation reads them — timestamps enter updates only
through the dynamic field bag, which is modelled separately (`JsObj`). -/
structure Tx where
  id : String
  type_id : String
  category_id : String
  currency_id : String
  amount : ℚ
  date : String
  settlement_id : Option String
  recurrence_id : Option String
  note : String
deriving DecidableEq, Repr

/-- A row of the `settlement` table (`Settlement` in `db/database.ts`). -/
structure Settlement where
  id : String
  compensated_transaction_id : String
  compensation_transaction_id : String
  amount : ℚ
deriving DecidableEq, Repr

/-- A row of the `category` table (`Category` in `db/database.ts`). -/
structure Category where
  id : String
  name : String
  color : String
  icon : String
deriving DecidableEq, Repr

/-- The content of the relational store the repositories query. -/
structure Store where
  transactions : List Tx
  settlements : List Settlement
  categories : List Category
deriving DecidableEq, Repr

/-- Sum of the amounts of all settlements whose `compensated_transaction_id`
equals `tid`: the value of the correlated subquery
`SELECT SUM(amount) FROM settlement GROUP BY compensated_transaction_id`
joined on `tid`, with `COALESCE(..., 0)` for an empty group. -/
def compensatedAmount (st : Store) (tid : String) : ℚ :=
  ((st.settlements.filter (fun s => s.compensated_transaction_id == tid)).map
    Settlement.amount).sum

/-- Embedding of `SELECT ... FROM transactions t WHERE t.id = ?`: the row with
the given primary key (`find?` — the id column is the primary key). -/
def findTransaction (st : Store) (tid : String) : Option Tx :=
  st.transactions.find? (fun t => t.id == tid)

/-- Result record of `getTransactionCompensationStatus`. -/
structure CompensationStatus where
  originalAmount : ℚ
  compensatedAmount : ℚ
  remainingAmount : ℚ
  isFullyCompensated : Bool
deriving DecidableEq, Repr

/-- Embedding of `TransactionRepository.getTransactionCompensationStatus`
(`TransactionRepository.ts:445`): the aggregate query returns the
transaction's amount together with `COALESCE(SUM(s.amount), 0)` over the
settlements compensating it; a missing row raises `Transaction not found`;
`remainingAmount` is clamped at zero and `isFullyCompensated` is
`remainingAmount <= 0` before clamping. -/
def getTransactionCompensationStatus (st : Store) (tid : String) :
    Except String CompensationStatus :=
  match findTransaction st tid with
  | none => .error "Transaction not found"
  | some t =>
    let comp := compensatedAmount st tid
    let remaining := t.amount - comp
    .ok { originalAmount := t.amount
          compensatedAmount := comp
          remainingAmount := max 0 remaining
          isFullyCompensated := decide (remaining ≤ 0) }

/-- Embedding of `TransactionRepository.getTotalByType`
(`TransactionRepository.ts:390`): the sum, over transactions of the given
type, of `t.amount - COALESCE(s.compensated_amount, 0)` where `s` is the
per-transaction settlement-sum subquery; `COALESCE(SUM(...), 0)` makes the
empty sum `0` (and the trailing JS `|| 0` is the identity on numbers). -/
def getTotalByType (st : Store) (typeId : String) : ℚ :=
  ((st.transactions.filter (fun t => t.type_id == typeId)).map
    (fun t => t.amount - compensatedAmount st t.id)).sum

/-- Embedding of `TransactionRepository.getBalance`
(`TransactionRepository.ts:412`). -/
def getBalance (st : Store) : ℚ :=
  getTotalByType st "income" - getTotalByType st "expense"

/-- Lookup of the `category` row joined by `LEFT JOIN category c ON
t.category_id = c.id` (`none` models the NULL row of a failed left join). -/
def findCategory (st : Store) (cid : String) : Option Category :=
  st.categories.find? (fun c => c.id == cid)

/-- The group keys of `GROUP BY t.category_id, c.name, c.color` over the
expense transactions: the distinct `category_id`s (name and color are
functionally determined by the joined category row). -/
def expenseCategoryKeys (st : Store) : List String :=
  ((st.transactions.filter (fun t => t.type_id == "expense")).map
    Tx.category_id).dedup

/-- Net-of-settlement expense amount of one category group:
`SUM(t.amount - COALESCE(s.compensated_amount, 0))` over the expense
transactions of the category. -/
def categoryNetExpense (st : Store) (cid : String) : ℚ :=
  ((st.transactions.filter
      (fun t => t.type_id == "expense" && t.category_id == cid)).map
    (fun t => t.amount - compensatedAmount st t.id)).sum

/-- One element of the `getExpensesByCategory` result.  `categoryName` and
`categoryColor` are `Option`s because the LEFT JOIN may produce NULL. -/
structure ExpensesByCategory where
  categoryName : Option String
  categoryColor : Option String
  amount : ℚ
  percentage : ℤ
deriving DecidableEq, Repr

/-- The query rows of `getExpensesByCategory` before percentages: one row per
category group, filtered by `HAVING amount > 0`. -/
def expensesByCategoryRows (st : Store) : List (Option Category × ℚ) :=
  ((expenseCategoryKeys st).map
    (fun cid => (findCategory st cid, categoryNetExpense st cid))).filter
    (fun r => decide (0 < r.2))

/-- Embedding of `TransactionRepository.getExpensesByCategory`
(`TransactionRepository.ts:346`): the grouped, HAVING-filtered rows are
ordered by amount descending (`ORDER BY amount DESC`; SQL leaves ties
unspecified, a stable insertion sort is one of its refinements), the total
over the returned rows is computed, an all-zero total short-circuits to the
empty list, and otherwise each row is annotated with
`Math.round(amount / total * 100)` (JS `Math.round` is `⌊x + 1/2⌋`, which is
Mathlib's `round`). -/
def getExpensesByCategory (st : Store) : List ExpensesByCategory :=
  let rows := List.insertionSort (fun a b : Option Category × ℚ => b.2 ≤ a.2)
    (expensesByCategoryRows st)
  let total := (rows.map Prod.snd).sum
  if total = 0 then []
  else rows.map (fun r =>
    { categoryName := r.1.map Category.name
      categoryColor := r.1.map Category.color
      amount := r.2
      percentage := round (r.2 / total * 100) })

/-! ## Write-path validation (`IRepository.ts`, `TransactionRepository.ts`,
`RepositoryFactory.ts`) -/

/-- A dynamic JS value as it appears in an update bag or a field slot. -/
inductive JsValue where
  | str (s : String)
  | num (q : ℚ)
  | nil
deriving DecidableEq, Repr

/-- JS truthiness of a value (non-empty string, non-zero number). -/
def JsValue.truthy : JsValue → Bool
  | .str s => decide (s ≠ "")
  | .num q => decide (q ≠ 0)
  | .nil => false

/-- External JS runtime facilities the repositories call: wall-clock time
(`new Date().toISOString()`), id generation (`uuidv4()` and the
`stl_...` settlement id), and `Date`-string parsability
(`!Number.isNaN(new Date(s).getTime())`).  They are environment inputs of
the embedding, like the SQLite handle. -/
structure JsEnv where
  now : String
  freshId : String
  freshSettlementId : String
  dateParses : String → Bool

/-- Embedding of `BaseRepository.validateNotEmpty` (`IRepository.ts:53`):
errors when the value is not a non-blank string (`!value?.trim()`; a
non-string value also fails the guard in the dynamic source). -/
def validateNotEmpty (v : JsValue) (fieldName : String) : Except String Unit :=
  match v with
  | .str s => if s.trim = "" then .error (fieldName ++ " is required") else .ok ()
  | _ => .error (fieldName ++ " is required")

/-- Embedding of `BaseRepository.validatePositiveNumber` (`IRepository.ts:59`):
`typeof value !== 'number' || value <= 0` is rejected. -/
def validatePositiveNumber (v : JsValue) (fieldName : String) : Except String Unit :=
  match v with
  | .num q =>
    if q ≤ 0 then .error (fieldName ++ " must be a positive number") else .ok ()
  | _ => .error (fieldName ++ " must be a positive number")

/-- Embedding of `BaseRepository.validateDate` (`IRepository.ts:65`): a string
is checked through the JS `Date` parser (environment); a number is a valid
epoch-milliseconds `Date` argument; `null`/`undefined` parses to `NaN`. -/
def validateDate (env : JsEnv) (v : JsValue) (fieldName : String) : Except String Unit :=
  match v with
  | .str s => if env.dateParses s then .ok ()
              else .error (fieldName ++ " must be a valid date")
  | .num _ => .ok ()
  | .nil => .error (fieldName ++ " must be a valid date")

/-- Embedding of `BaseRepository.validateDecimalPrecision` (`IRepository.ts:72`)
with `maxDecimals = 2`: in exact arithmetic, rounding the fractional part to
two decimals is the identity exactly when `value * 100` is an integer; a
non-number fails the check (`NaN !== NaN`). -/
def validateDecimalPrecision (v : JsValue) (fieldName : String) : Except String Unit :=
  match v with
  | .num q =>
    if (q * 100).den = 1 then .ok ()
    else .error (fieldName ++ " cannot have more than 2 decimal places")
  | _ => .error (fieldName ++ " cannot have more than 2 decimal places")

/-- The SQL keywords of the defence-in-depth regex in `validateTransaction`
(`TransactionRepository.ts:555`). -/
def sqlKeywords : List String :=
  ["SELECT", "INSERT", "UPDATE", "DELETE", "DROP", "CREATE", "ALTER"]

/-- A regex word character (`\w`): letter, digit or underscore. -/
def isWordChar (c : Char) : Bool := c.isAlpha || c.isDigit || c = '_'

/-- Case-insensitive keyword match at the head of the character list,
returning the remainder on success. -/
def ciMatch : List Char → List Char → Option (List Char)
  | [], s => some s
  | _ :: _, [] => none
  | k :: ks, c :: cs => if k.toLower = c.toLower then ciMatch ks cs else none

/-- A word boundary follows: end of input or a non-word character. -/
def boundaryAfter : List Char → Bool
  | [] => true
  | c :: _ => !isWordChar c

/-- Scan for `\b(KEYWORD)\b` case-insensitively; `prevIsWord` tells whether
the previous character was a word character (no boundary before here). -/
def sqlScan (ks : List String) : Bool → List Char → Bool
  | _, [] => false
  | prevIsWord, c :: cs =>
    (!prevIsWord && ks.any (fun kw =>
      match ciMatch kw.data (c :: cs) with
      | some rest => boundaryAfter rest
      | none => false))
    || sqlScan ks (isWordChar c) cs

/-- Embedding of `sqlPatterns.test(note)`: the case-insensitive,
word-boundary-delimited SQL keyword screen of `validateTransaction`. -/
def sqlPatternsTest (s : String) : Bool := sqlScan sqlKeywords false s.data

/-- The dynamic field bag `validateTransaction` inspects (a transaction row
or a merged update, before any type checking). -/
structure DynTx where
  type_id : JsValue
  category_id : JsValue
  currency_id : JsValue
  amount : JsValue
  date : JsValue
  note : JsValue
deriving Repr

/-- Embedding of `TransactionRepository.validateTransaction`
(`TransactionRepository.ts:545`): the validator chain in source order —
required fields, positive amount, valid date, two-decimal precision, SQL
keyword screen on the note, and the maximum amount guard. -/
def validateTransaction (env : JsEnv) (t : DynTx) : Except String Unit := do
  validateNotEmpty t.type_id "Transaction type"
  validateNotEmpty t.category_id "Category"
  validateNotEmpty t.currency_id "Currency"
  validateNotEmpty t.note "Note/description"
  validatePositiveNumber t.amount "Amount"
  validateDate env t.date "Date"
  validateDecimalPrecision t.amount "Amount"
  match t.note with
  | .str s =>
    if sqlPatternsTest s then .error "Invalid characters detected in note field"
    else .ok ()
  | _ => .ok ()
  match t.amount with
  | .num q =>
    if 999999999 < q then .error "Amount exceeds maximum allowed value" else .ok ()
  | _ => .ok ()

/-- The typed input of `TransactionRepository.create`
(`Omit<Transaction, 'id'>`). -/
structure NewTx where
  type_id : String
  category_id : String
  currency_id : String
  amount : ℚ
  date : String
  settlement_id : Option String
  recurrence_id : Option String
  note : String
deriving DecidableEq, Repr

/-- The dynamic view of a typed creation input. -/
def NewTx.dyn (t : NewTx) : DynTx :=
  ⟨.str t.type_id, .str t.category_id, .str t.currency_id,
   .num t.amount, .str t.date, .str t.note⟩

/-- Embedding of `TransactionRepository.create`
(`TransactionRepository.ts:88`): validate, then INSERT the row with a fresh
id and timestamps; the amount is stored exactly as given. -/
def createTransaction (env : JsEnv) (st : Store) (t : NewTx) :
    Except String (Store × String) := do
  validateTransaction env t.dyn
  let id := env.freshId
  .ok ({ st with transactions := st.transactions ++
          [⟨id, t.type_id, t.category_id, t.currency_id, t.amount, t.date,
            t.settlement_id, t.recurrence_id, t.note⟩] }, id)

/-- The input of `RepositoryFactory.addSettlement` (`Omit<Settlement, 'id'>`). -/
structure NewSettlement where
  compensated_transaction_id : String
  compensation_transaction_id : String
  amount : ℚ
deriving DecidableEq, Repr

/-- Embedding of `RepositoryFactory.addSettlement`
(`RepositoryFactory.ts:82`): a fresh id is generated and the row INSERTed
as given; the function performs no validation of its own (its only throw is
the opaque store-failure passthrough). -/
def addSettlement (env : JsEnv) (st : Store) (s : NewSettlement) :
    Except String (Store × String) :=
  let id := env.freshSettlementId
  .ok ({ st with settlements := st.settlements ++
          [⟨id, s.compensated_transaction_id, s.compensation_transaction_id,
            s.amount⟩] }, id)

/-! ## Dynamic update bags and SET-clause construction
(`SqlSafetyUtil.ts`, `TransactionRepository.update`,
`CategoryRepository.update`) -/

/-- A dynamic JS object: an insertion-ordered list of key/value pairs with
distinct keys, as produced by an object literal. -/
abbrev JsObj := List (String × JsValue)

/-- Property read `obj[k]` (`undefined` becomes `none`). -/
def lookupField (u : JsObj) (f : String) : Option JsValue :=
  (u.find? (fun p => p.1 == f)).map Prod.snd

/-- JS object spread update `{...u, k: v}`: an existing key keeps its
position and takes the new value, a new key is appended. -/
def jsObjSet (u : JsObj) (k : String) (v : JsValue) : JsObj :=
  if u.any (fun p => p.1 == k) then
    u.map (fun p => if p.1 == k then (k, v) else p)
  else u ++ [(k, v)]

/-- Modelled from the spec: `ALLOWED_SCHEMAS` of
`src/repositories/base/SqlSafetyUtil.ts`, which is not present under
`src/` (only its test suite `SqlSafetyUtil.test.ts` and its callers are).
Per spec §6 it is "a fixed, per-table allow-list" of updatable column
names; the tables are those its test asserts (`transactions`, `category`,
`currency`, `type`), the transaction columns are the schema columns of
`db/database.ts` plus the `description` column its test exercises. -/
def ALLOWED_SCHEMAS : List (String × List String) :=
  [("transactions",
     ["type_id", "category_id", "currency_id", "amount", "date",
      "settlement_id", "recurrence_id", "note", "created_at", "updated_at",
      "description"]),
   ("category", ["name", "color", "icon"]),
   ("currency", ["code", "symbol", "name"]),
   ("type", ["name"])]

/-- Modelled from the spec: `validateColumnNames` of the absent
`SqlSafetyUtil.ts`; per its test it throws `Unknown table: ...` for a table
outside the schema map and `Invalid column '...' for table '...'` for a
column outside the table's allow-list. -/
def validateColumnNames (table : String) (cols : List String) : Except String Unit :=
  match ALLOWED_SCHEMAS.find? (fun p => p.1 == table) with
  | none => .error ("Unknown table: " ++ table)
  | some (_, allowed) =>
    match cols.find? (fun c => !(allowed.contains c)) with
    | some c => .error ("Invalid column '" ++ c ++ "' for table '" ++ table ++ "'")
    | none => .ok ()

/-- Modelled from the spec: `buildSafeUpdateClause` of the absent
`SqlSafetyUtil.ts`; per spec §6 and its test it validates every field name
of the update bag against the table's allow-list (failing closed), then
builds the parameterized `f1 = ?, f2 = ?` clause and the value list; an
empty bag yields the empty clause. -/
def buildSafeUpdateClause (table : String) (updates : JsObj) :
    Except String (String × List JsValue) := do
  validateColumnNames table (updates.map Prod.fst)
  .ok (String.intercalate ", " ((updates.map Prod.fst).map (fun f => f ++ " = ?")),
       updates.map Prod.snd)

/-- The guard of `TransactionRepository.update` (`TransactionRepository.ts:123`)
that decides whether the merged row is re-validated:
`updates.amount !== undefined || updates.type_id || ...` (the non-amount
fields by truthiness). -/
def txUpdateNeedsValidation (u : JsObj) : Bool :=
  (lookupField u "amount").isSome ||
  ((lookupField u "type_id").getD .nil).truthy ||
  ((lookupField u "category_id").getD .nil).truthy ||
  ((lookupField u "currency_id").getD .nil).truthy ||
  ((lookupField u "date").getD .nil).truthy ||
  ((lookupField u "note").getD .nil).truthy

/-- The merge `{ ...current, ...updates }` of `TransactionRepository.update`,
restricted to the fields `validateTransaction` reads. -/
def mergeForValidation (t : Tx) (u : JsObj) : DynTx :=
  { type_id := (lookupField u "type_id").getD (.str t.type_id)
    category_id := (lookupField u "category_id").getD (.str t.category_id)
    currency_id := (lookupField u "currency_id").getD (.str t.currency_id)
    amount := (lookupField u "amount").getD (.num t.amount)
    date := (lookupField u "date").getD (.str t.date)
    note := (lookupField u "note").getD (.str t.note) }

/-- The parameterized statement an update resolves to: `none` when no valid
field remained (`if (!setClause) return`), otherwise the SET clause and the
parameter list (values followed by the id). -/
abbrev UpdateStatement := Option (String × List JsValue)

/-- Embedding of `TransactionRepository.update`
(`TransactionRepository.ts:120`): optional merge-and-revalidate of core
fields, `updated_at` timestamp added by object spread, SET clause built by
`buildSafeUpdateClause` (which fails closed on unknown columns), empty
clause short-circuits, otherwise `UPDATE transactions SET ... WHERE id = ?`
runs with `[...values, id]`. -/
def transactionRepoUpdate (env : JsEnv) (st : Store) (id : String) (u : JsObj) :
    Except String UpdateStatement := do
  (if txUpdateNeedsValidation u then
    match findTransaction st id with
    | none => .error "Transaction not found"
    | some t => validateTransaction env (mergeForValidation t u)
   else .ok ())
  let u2 := jsObjSet u "updated_at" (.str env.now)
  let r ← buildSafeUpdateClause "transactions" u2
  if r.1 = "" then .ok none
  else .ok (some (r.1, r.2 ++ [.str id]))

/-- Whitespace-run collapse for the slug: each maximal run of whitespace
becomes one underscore (`.replace(/\s+/g, '_')`); the flag records whether
the previous character was whitespace. -/
def collapseWsAux : Bool → List Char → List Char
  | _, [] => []
  | prevWs, c :: cs =>
    if c.isWhitespace then
      if prevWs then collapseWsAux true cs else '_' :: collapseWsAux true cs
    else c :: collapseWsAux false cs

/-- The category-id slug of `CategoryRepository` (`CategoryRepository.ts:87`):
lowercase, whitespace runs to `_`, all characters outside `[a-z0-9_]`
stripped. -/
def slugify (s : String) : String :=
  String.mk ((collapseWsAux false s.toLower.data).filter
    (fun c => ('a' ≤ c && c ≤ 'z') || c.isDigit || c = '_'))

/-- String rendering of a JS value inside a template literal. -/
def JsValue.render : JsValue → String
  | .str s => s
  | .num q => toString q
  | .nil => "null"

/-- Embedding of `CategoryRepository.update` (`CategoryRepository.ts:80`):
an updated name is checked for blankness and for an id collision, then the
SET clause is built directly from `Object.keys(updates)` — every field name
of the bag is interpolated into the statement, with no allow-list check —
and `UPDATE category SET ... WHERE id = ?` runs with `[...values, id]`. -/
def categoryRepoUpdate (st : Store) (id : String) (u : JsObj) :
    Except String UpdateStatement := do
  (match lookupField u "name" with
   | some nameVal => do
     validateNotEmpty nameVal "Category name"
     let newId := slugify nameVal.render
     if newId ≠ id then
       match st.categories.find? (fun c => c.id == newId) with
       | some _ => .error ("Category with name \"" ++ nameVal.render ++ "\" already exists")
       | none => .ok ()
     else .ok ()
   | none => .ok ())
  let fields := u.map Prod.fst
  if fields.length = 0 then .ok none
  else .ok (some (String.intercalate ", " (fields.map (fun f => f ++ " = ?")),
                  u.map Prod.snd ++ [.str id]))

/-! ## Windowed transaction cache (`src/utils/TransactionCache.ts`)

The JS `Map<number, Transaction>` is modelled as an insertion-ordered
association list with distinct keys; `Map.set` updates an existing key in
place (keeping its position) and appends a new one, `Map.delete` removes
the entry, and iteration (`entries()`, `keys()`) follows list order, as in
JS.  The cache values are `Tx` rows (the payload is opaque to the cache;
the source's optional compensation annotations do not affect any cache
operation). -/

/-- A JS `Map<number, Transaction>` as an insertion-ordered association list. -/
abbrev JsMap := List (ℤ × Tx)

/-- `map.has(k)`. -/
def mapHas (m : JsMap) (k : ℤ) : Bool := m.any (fun p => p.1 == k)

/-- `map.get(k)` (`undefined` becomes `none`). -/
def mapGet (m : JsMap) (k : ℤ) : Option Tx :=
  (m.find? (fun p => p.1 == k)).map Prod.snd

/-- `map.set(k, v)`: update in place or append. -/
def mapSet (m : JsMap) (k : ℤ) (v : Tx) : JsMap :=
  if mapHas m k then m.map (fun p => if p.1 == k then (k, v) else p)
  else m ++ [(k, v)]

/-- `map.delete(k)`. -/
def mapDelete (m : JsMap) (k : ℤ) : JsMap := m.filter (fun p => p.1 != k)

/-- A recency-tracking window (`CacheWindow`). -/
structure CacheWindow where
  startIndex : ℤ
  endIndex : ℤ
  transactions : List Tx
deriving DecidableEq, Repr

/-- The state of a `TransactionCache` instance: the three configuration
fields of `CacheConfig` (only `maxInMemoryItems` is ever read), the sparse
index map, the recency windows, and the backing-store row count. -/
structure Cache where
  maxInMemoryItems : ℕ
  windowSize : ℕ
  preloadBuffer : ℕ
  cache : JsMap
  windows : List CacheWindow
  currentWindow : Option CacheWindow
  totalCount : ℤ
deriving DecidableEq, Repr

/-- The constructor `new TransactionCache(config)` with the source's
defaults (`maxInMemoryItems: 100`, `windowSize: 50`, `preloadBuffer: 20`). -/
def Cache.new (maxInMemoryItems : ℕ) (windowSize : ℕ) (preloadBuffer : ℕ) : Cache :=
  ⟨maxInMemoryItems, windowSize, preloadBuffer, [], [], none, 0⟩

/-- The iteration list of `for (let i = start; i <= start + count - 1; i++)`:
`count.toNat` consecutive integers from `start` (empty when `count ≤ 0`). -/
def intRange (start count : ℤ) : List ℤ :=
  (List.range count.toNat).map (fun i : ℕ => start + (i : ℤ))

namespace Cache

/-- The map's key set sorted ascending
(`Array.from(this.cache.keys()).sort((a, b) => a - b)`). -/
def sortedIndices (m : JsMap) : List ℤ :=
  List.insertionSort (fun a b => a ≤ b) (m.map Prod.fst)

/-- Embedding of the private `cleanupCache` (`TransactionCache.ts:265`):
no-op while the resident count is within budget; otherwise keep the
positions `keepStart .. keepEnd` of the ascending key list — a run of at
most `maxInMemoryItems` entries centered on the midpoint and clamped to the
bounds — rebuilding the map from exactly those entries.  `keepStart` uses
truncated ℕ subtraction (`Math.max(0, ...)`); `keepEnd` is computed in ℤ so
that an empty loop (`keepEnd < keepStart`) keeps nothing, and the for-loop
from `keepStart` to `keepEnd` inclusive is the `List.range'` of length
`keepEnd + 1 - keepStart`. -/
def cleanupCache (c : Cache) : Cache :=
  if c.cache.length ≤ c.maxInMemoryItems then c
  else
    let sortedIdx := sortedIndices c.cache
    let midPoint := sortedIdx.length / 2
    let keepStart := midPoint - c.maxInMemoryItems / 2
    let keepEnd : ℤ :=
      min ((sortedIdx.length : ℤ) - 1) ((keepStart : ℤ) + (c.maxInMemoryItems : ℤ) - 1)
    let newCache : JsMap :=
      (List.range' keepStart (keepEnd + 1 - (keepStart : ℤ)).toNat).filterMap
        (fun i => (sortedIdx.get? i).bind
          (fun k => (mapGet c.cache k).map (fun t => (k, t))))
    { c with cache := newCache }

/-- Embedding of the private `updateWindows` (`TransactionCache.ts:245`):
drop overlapping windows, append the new one, keep only the last three. -/
def updateWindows (c : Cache) (w : CacheWindow) : Cache :=
  let ws := (c.windows.filter (fun win =>
      decide (win.endIndex < w.startIndex) || decide (win.startIndex > w.endIndex))) ++ [w]
  let ws2 := if 3 < ws.length then ws.drop (ws.length - 3) else ws
  { c with windows := ws2, currentWindow := some w }

/-- Embedding of `addTransactions` (`TransactionCache.ts:44`): store the new
total, write `transactions[i]` to index `startIndex + i` (last write wins),
register the contiguous window, then clean up. -/
def addTransactions (c : Cache) (txs : List Tx) (startIndex : ℤ) (totalCount : ℤ) : Cache :=
  let c1 := { c with totalCount := totalCount,
                     cache := txs.enum.foldl
                       (fun m p => mapSet m (startIndex + p.1) p.2) c.cache }
  let w : CacheWindow := ⟨startIndex, startIndex + txs.length - 1, txs⟩
  cleanupCache (updateWindows c1 w)

/-- Embedding of `getTransactions` (`TransactionCache.ts:75`): the loop
`for (i = startIndex; i <= endIndex && i < totalCount; i++)` collects the
resident entries and skips the holes. -/
def getTransactions (c : Cache) (startIndex count : ℤ) : List Tx :=
  (((intRange startIndex count).filter (fun i => decide (i < c.totalCount))).map
    (mapGet c.cache)).reduceOption

/-- Embedding of `isRangeCached` (`TransactionCache.ts:109`): every index of
the requested range is resident. -/
def isRangeCached (c : Cache) (startIndex count : ℤ) : Bool :=
  (intRange startIndex count).all (mapHas c.cache)

/-- The scanning loop of `getMissingRanges`: `rs` is the open gap start
(`rangeStart`), `acc` the ranges pushed so far; a resident index closes an
open gap with length `i - rangeStart`, an absent index opens one if none is
open.  Returns the accumulator and the still-open gap start. -/
def missingLoop (has : ℤ → Bool) :
    List ℤ → Option ℤ → List (ℤ × ℤ) → List (ℤ × ℤ) × Option ℤ
  | [], rs, acc => (acc, rs)
  | i :: rest, rs, acc =>
    if has i then
      match rs with
      | some r => missingLoop has rest none (acc ++ [(r, i - r)])
      | none => missingLoop has rest none acc
    else
      match rs with
      | some r => missingLoop has rest (some r) acc
      | none => missingLoop has rest (some i) acc

/-- Embedding of `getMissingRanges` (`TransactionCache.ts:124`): the linear
scan over `[startIndex, startIndex + count)`, with the trailing open gap
closed against `endIndex` (`count = endIndex - rangeStart + 1`). -/
def getMissingRanges (c : Cache) (startIndex count : ℤ) : List (ℤ × ℤ) :=
  let endIndex := startIndex + count - 1
  match missingLoop (mapHas c.cache) (intRange startIndex count) none [] with
  | (acc, some r) => acc ++ [(r, endIndex - r + 1)]
  | (acc, none) => acc

/-- Embedding of the private `shiftIndicesForward` (`TransactionCache.ts:295`):
entries sorted by key descending are re-inserted into a cleared map at
`index + 1`. -/
def shiftIndicesForward (m : JsMap) : JsMap :=
  (List.insertionSort (fun a b : ℤ × Tx => b.1 ≤ a.1) m).foldl
    (fun acc p => mapSet acc (p.1 + 1) p.2) []

/-- Embedding of the private `shiftIndicesBackward` (`TransactionCache.ts:307`):
entries sorted by key ascending are re-inserted, keys above the removed
index shifted down by one. -/
def shiftIndicesBackward (m : JsMap) (removedIndex : ℤ) : JsMap :=
  (List.insertionSort (fun a b : ℤ × Tx => a.1 ≤ b.1) m).foldl
    (fun acc p =>
      if removedIndex < p.1 then mapSet acc (p.1 - 1) p.2
      else mapSet acc p.1 p.2) []

/-- Embedding of `addTransaction` (`TransactionCache.ts:159`): with an
explicit index a direct insert extending `totalCount`; without, a front
insert after shifting every index up; both paths end in `cleanupCache`. -/
def addTransaction (c : Cache) (t : Tx) (index : Option ℤ) : Cache :=
  match index with
  | some i =>
    cleanupCache { c with cache := mapSet c.cache i t,
                          totalCount := max c.totalCount (i + 1) }
  | none =>
    cleanupCache { c with cache := mapSet (shiftIndicesForward c.cache) 0 t,
                          totalCount := c.totalCount + 1 }

/-- Embedding of `removeTransaction` (`TransactionCache.ts:177`): the first
entry (in insertion order) whose payload id matches is deleted, higher
indices are shifted down, `totalCount` is decremented; a miss is a no-op
returning `false`. -/
def removeTransaction (c : Cache) (id : String) : Bool × Cache :=
  match c.cache.find? (fun p => p.2.id == id) with
  | some p =>
    (true, { c with cache := shiftIndicesBackward (mapDelete c.cache p.1) p.1,
                    totalCount := c.totalCount - 1 })
  | none => (false, c)

/-- Embedding of `updateTransaction` (`TransactionCache.ts:202`): replace in
place at the first index (in insertion order) holding the id. -/
def updateTransaction (c : Cache) (t : Tx) : Bool × Cache :=
  match c.cache.find? (fun p => p.2.id == t.id) with
  | some p => (true, { c with cache := mapSet c.cache p.1 t })
  | none => (false, c)

/-- Embedding of `clear` (`TransactionCache.ts:215`). -/
def clear (c : Cache) : Cache :=
  { c with cache := [], windows := [], currentWindow := none, totalCount := 0 }

/-- The JS `Map` key-uniqueness invariant: every state a `TransactionCache`
can reach has distinct keys in its entry list. -/
def WF (c : Cache) : Prop := (c.cache.map Prod.fst).Nodup

end Cache

/-! ## Auxiliary notions for the cache proofs -/

/-- The cache entries sorted by key ascending: the canonical reading order
of the resident entries. -/
def sortPairs (m : JsMap) : JsMap :=
  List.insertionSort (fun a b : ℤ × Tx => a.1 ≤ b.1) m

instance : IsTotal (ℤ × Tx) (fun a b : ℤ × Tx => a.1 ≤ b.1) :=
  ⟨fun a b => le_total a.1 b.1⟩

instance : IsTrans (ℤ × Tx) (fun a b : ℤ × Tx => a.1 ≤ b.1) :=
  ⟨fun _ _ _ h1 h2 => le_trans h1 h2⟩

/-- The start of the kept run of `cleanupCache`:
`midPoint - floor(maxInMemoryItems / 2)` clamped at 0 (truncated ℕ
subtraction is exactly the `Math.max(0, ...)`). -/
def keepStartOf (c : Cache) : ℕ := c.cache.length / 2 - c.maxInMemoryItems / 2

/-- The number of entries `cleanupCache` keeps when it evicts. -/
def keepCountOf (c : Cache) : ℕ :=
  min (c.cache.length - keepStartOf c) c.maxInMemoryItems

/-- The loop invariant of the missing-range scan of `getMissingRanges`,
after the indices of `[start, lo)` have been visited: every pushed range is
a maximal run of absent indices closed by a resident index, the pushed
ranges are disjoint and ascending, an open gap `rs = some r` is a run of
absent indices reaching the scan position, and every absent visited index
is covered by a pushed range or the open gap. -/
structure MissingInv (has : ℤ → Bool) (start lo : ℤ) (rs : Option ℤ)
    (acc : List (ℤ × ℤ)) : Prop where
  start_le : start ≤ lo
  acc_sound : ∀ p ∈ acc, 1 ≤ p.2 ∧ start ≤ p.1 ∧ p.1 + p.2 < lo ∧
    has (p.1 + p.2) = true ∧ (∀ i, p.1 ≤ i → i < p.1 + p.2 → has i = false) ∧
    (p.1 = start ∨ has (p.1 - 1) = true)
  acc_sorted : acc.Pairwise (fun a b => a.1 + a.2 < b.1)
  open_inv : ∀ r, rs = some r → start ≤ r ∧ r < lo ∧
    (∀ i, r ≤ i → i < lo → has i = false) ∧ (r = start ∨ has (r - 1) = true) ∧
    (∀ p ∈ acc, p.1 + p.2 < r)
  closed_inv : rs = none → lo = start ∨ has (lo - 1) = true
  covered : ∀ i, start ≤ i → i < lo → has i = false →
    (∃ p ∈ acc, p.1 ≤ i ∧ i < p.1 + p.2) ∨ (∃ r, rs = some r ∧ r ≤ i)

/-! ## Concrete fixtures used by witnesses and counterexamples -/

/-- A concrete environment: fixed timestamp, fixed ids, a permissive date
parser. -/
def env0 : JsEnv := ⟨"2024-01-01T00:00:00.000Z", "uuid-1", "stl_1", fun _ => true⟩

/-- The empty store. -/
def st0 : Store := ⟨[], [], []⟩

/-- The spec's compensation scenario: an expense of 100. -/
def txC1 : Tx := ⟨"a1", "expense", "food", "eur", 100, "2024-01-01", none, none, "Lunch"⟩

/-- Store with `txC1` and one settlement of 40 against it. -/
def stC1 : Store := ⟨[txC1], [⟨"s1", "a1", "c1", 40⟩], []⟩

/-- An expense transaction in a given category. -/
def txE (i : String) (cid : String) (q : ℚ) : Tx :=
  ⟨i, "expense", cid, "eur", q, "2024-01-01", none, none, "x"⟩

/-- Three expense categories with nets 67, 67, 66: the percentages round to
34, 34, 33, summing to 101. -/
def st5cx : Store :=
  ⟨[txE "1" "a" 67, txE "2" "b" 67, txE "3" "c" 66], [],
   [⟨"a", "A", "#ff0000", "i"⟩, ⟨"b", "B", "#00ff00", "i"⟩, ⟨"c", "C", "#0000ff", "i"⟩]⟩

/-- The first breakdown element `getExpensesByCategory` returns on `st5cx`. -/
def eC5 : ExpensesByCategory := ⟨some "A", some "#ff0000", 67, 34⟩

/-- A store with one income and one expense row. -/
def stC4 : Store :=
  ⟨[⟨"i1", "income", "salary", "eur", 30, "2024-01-02", none, none, "pay"⟩,
    txE "e1" "food" 10], [], []⟩

/-- A savings transaction. -/
def txSav : Tx := ⟨"sv1", "savings", "other", "eur", 500, "2024-01-03", none, none, "save"⟩

/-- A creation input with a non-positive amount. -/
def badTx : NewTx := ⟨"expense", "food", "eur", -5, "2024-01-01", none, none, "Lunch"⟩

/-- A well-formed creation input. -/
def goodTx : NewTx := ⟨"expense", "food", "eur", 12, "2024-01-01", none, none, "Lunch"⟩

/-- The store after creating `goodTx` in the empty store. -/
def stGood : Store :=
  ⟨[⟨"uuid-1", "expense", "food", "eur", 12, "2024-01-01", none, none, "Lunch"⟩], [], []⟩

/-- A store holding the category row the C6 failing input updates. -/
def st6 : Store := ⟨[], [], [⟨"food", "Food", "#ff0000", "utensils"⟩]⟩

/-- A numbered cache payload. -/
def scTx (n : ℕ) : Tx := ⟨toString n, "expense", "food", "eur", 1, "2024-01-01", none, none, "t"⟩

/-- First batch of the eviction scenario: items for indices 0..4. -/
def scBatch1 : List Tx := (List.range 5).map scTx

/-- Second batch of the eviction scenario: items for indices 5..9. -/
def scBatch2 : List Tx := (List.range 5).map (fun i => scTx (5 + i))

/-- Scenario cache after the first batch (`maxInMemoryItems = 4`). -/
def scCache1 : Cache := Cache.addTransactions (Cache.new 4 50 20) scBatch1 0 10

/-- Scenario cache after both batches: eviction has kept the resident
indices 2, 3, 5, 6. -/
def scCache2 : Cache := Cache.addTransactions scCache1 scBatch2 5 10

/-- A full cache (`maxInMemoryItems = 4`) holding indices 2..5 after one
eviction: the state before the C7 front insert. -/
def c7pre : Cache := Cache.addTransactions (Cache.new 4 50 20) ((List.range 9).map scTx) 0 9

/-- `c7pre` after `addTransaction` with no index: eviction has dropped the
shifted image of resident index 5. -/
def c7post : Cache := Cache.addTransaction c7pre (scTx 100) none

/-- The scenario state just before the second eviction of `scCache2`: the
second batch has been written and the window registered, `cleanupCache` has
not yet run; the resident indices are 0,1,2,3,5,6,7,8,9. -/
def scPre : Cache :=
  Cache.updateWindows
    { scCache1 with totalCount := 10,
                    cache := scBatch2.enum.foldl
                      (fun m p => mapSet m (5 + p.1) p.2) scCache1.cache }
    ⟨5, 5 + scBatch2.length - 1, scBatch2⟩

/-- A small cache state with residents at 1, 2 and 5 used by the range
witnesses. -/
def cw1 : Cache := ⟨4, 50, 20, [(1, scTx 1), (2, scTx 2), (5, scTx 5)], [], none, 10⟩

/-- A small uncached-free cache used by the C7 witness: two residents, room
for more. -/
def cw2 : Cache := ⟨4, 50, 20, [(0, scTx 0), (1, scTx 1)], [], none, 2⟩

/-! ## General helper lemmas -/

/-- Peeling one step of an `Except` do-chain that succeeded. -/
theorem except_bind_ok {α β : Type} {a : Except String α} {f : α → Except String β}
    {v : β} (h : (a >>= f) = .ok v) : ∃ u, a = .ok u ∧ f u = .ok v := by
  cases a with
  | ok u => exact ⟨u, rfl, h⟩
  | error e => simp [Bind.bind, Except.bind] at h

/-- `find?` by key returns the unique element with that key when the keys
are distinct. -/
theorem find?_eq_of_nodup_id {l : List Tx} {t : Tx} {tid : String}
    (hnd : (l.map Tx.id).Nodup) (ht : t ∈ l) (hid : t.id = tid) :
    l.find? (fun x => x.id == tid) = some t := by
  induction l with
  | nil => cases ht
  | cons a as ih =>
    have hcons : (∀ x ∈ as, ¬x.id = a.id) ∧ (as.map Tx.id).Nodup := by
      simpa using hnd
    by_cases ha : a.id = tid
    · have hta : t = a := by
        rcases List.mem_cons.mp ht with h | h
        · exact h
        · exact absurd (hid.trans ha.symm) (hcons.1 t h)
      subst hta
      simp [List.find?, ha]
    · have ht' : t ∈ as := by
        rcases List.mem_cons.mp ht with h | h
        · exact absurd (h ▸ hid) ha
        · exact h
      simp only [List.find?]
      rw [show (a.id == tid) = false by simpa using ha]
      exact ih hcons.2 ht'

/-! ## Claim C1 -/

/-- C1: for every transaction id present in the store (ids are unique — the
column is the primary key), `getTransactionCompensationStatus` returns
`originalAmount` equal to the transaction's amount, `compensatedAmount`
equal to the sum of the amounts of the settlements whose
`compensated_transaction_id` equals the id, `remainingAmount` equal to
`max 0 (originalAmount - compensatedAmount)`, and `isFullyCompensated` true
iff `remainingAmount = 0`; for an id not present it fails with the
`Transaction not found` error. -/
theorem claim_C1 (st : Store) (tid : String)
    (hnd : (st.transactions.map Tx.id).Nodup) :
    (∀ t ∈ st.transactions, t.id = tid →
      ∃ cs, getTransactionCompensationStatus st tid = .ok cs ∧
        cs.originalAmount = t.amount ∧
        cs.compensatedAmount =
          ((st.settlements.filter
              (fun s => s.compensated_transaction_id == tid)).map
            Settlement.amount).sum ∧
        cs.remainingAmount = max 0 (cs.originalAmount - cs.compensatedAmount) ∧
        (cs.isFullyCompensated = true ↔ cs.remainingAmount = 0)) ∧
    ((∀ t ∈ st.transactions, t.id ≠ tid) →
      getTransactionCompensationStatus st tid = .error "Transaction not found") := by
  constructor
  · intro t ht hid
    have hfind : findTransaction st tid = some t := find?_eq_of_nodup_id hnd ht hid
    refine ⟨⟨t.amount, compensatedAmount st tid,
             max 0 (t.amount - compensatedAmount st tid),
             decide (t.amount - compensatedAmount st tid ≤ 0)⟩,
           ?_, rfl, rfl, rfl, ?_⟩
    · simp [getTransactionCompensationStatus, hfind]
    · simp [decide_eq_true_eq, max_eq_left_iff]
  · intro h
    have hfind : findTransaction st tid = none := by
      refine List.find?_eq_none.mpr (fun t ht => ?_)
      simpa using h t ht
    simp [getTransactionCompensationStatus, hfind]

/-- Witness for C1: the spec's scenario — a 100 expense with one settlement
of 40 gives status (100, 40, 60, not fully compensated). -/
theorem claim_C1_witness :
    (stC1.transactions.map Tx.id).Nodup ∧
    ∃ cs, getTransactionCompensationStatus stC1 "a1" = .ok cs ∧
      cs.originalAmount = 100 ∧ cs.compensatedAmount = 40 ∧
      cs.remainingAmount = max 0 (cs.originalAmount - cs.compensatedAmount) ∧
      (cs.isFullyCompensated = true ↔ cs.remainingAmount = 0) := by
  refine ⟨by decide, ?_⟩
  obtain ⟨cs, h1, h2, h3, h4, h5⟩ :=
    (claim_C1 stC1 "a1" (by decide)).1 txC1 (by decide) rfl
  exact ⟨cs, h1, by rw [h2]; rfl, by rw [h3]; with_unfolding_all rfl, h4, h5⟩

/-! ## Claim C4 -/

/-- C4: the balance is the income total minus the expense total, each net of
settlements (by definition of `getTotalByType` these are the sums of
`amount - compensatedAmount` over the type's transactions), and a
savings-type transaction never influences the balance. -/
theorem claim_C4 :
    (∀ st : Store,
      getBalance st = getTotalByType st "income" - getTotalByType st "expense") ∧
    (∀ (st : Store) (t : Tx), t.type_id = "savings" →
      getBalance { st with transactions := t :: st.transactions } = getBalance st) := by
  constructor
  · intro st
    rfl
  · intro st t ht
    have hcomp : compensatedAmount { st with transactions := t :: st.transactions } =
        compensatedAmount st := rfl
    have h1 : ∀ ty : String, ty ≠ "savings" →
        getTotalByType { st with transactions := t :: st.transactions } ty =
          getTotalByType st ty := by
      intro ty hty
      have hne : (t.type_id == ty) = false := by
        simp [ht]
        exact fun hh => hty hh.symm
      simp [getTotalByType, List.filter_cons, hne, hcomp]
    simp [getBalance, h1 "income" (by decide), h1 "expense" (by decide)]

/-- Witness for C4: prepending a concrete savings transaction to a concrete
store leaves the balance unchanged. -/
theorem claim_C4_witness :
    getBalance { stC4 with transactions := txSav :: stC4.transactions } =
      getBalance stC4 :=
  claim_C4.2 stC4 txSav rfl

/-! ## Claim C5 -/

/-- Sum of a map with a constant addend. -/
theorem sum_map_add_const (l : List ℚ) (f : ℚ → ℚ) (c : ℚ) :
    (l.map (fun a => f a + c)).sum = (l.map f).sum + l.length * c := by
  induction l with
  | nil => simp
  | cons a as ih =>
    simp [ih]
    ring

/-- Sum of a map with a constant factor. -/
theorem sum_map_mul_const (l : List ℚ) (c : ℚ) :
    (l.map (fun a => a * c)).sum = l.sum * c := by
  induction l with
  | nil => simp
  | cons a as ih =>
    simp [ih]
    ring

/-- Rounding exceeds its argument by at most one half. -/
theorem round_cast_le (x : ℚ) : ((round x : ℤ) : ℚ) ≤ x + 1 / 2 := by
  rw [round_eq]
  exact_mod_cast Int.floor_le (x + 1 / 2)

/-- Casting a sum of integers to the rationals. -/
theorem intCast_list_sum (l : List ℤ) :
    ((l.sum : ℤ) : ℚ) = (l.map (fun z : ℤ => (z : ℚ))).sum := by
  rw [Int.cast_list_sum]

/-- The rounded shares of a nonzero total sum to at most `100 + n/2`. -/
theorem sum_round_shares_le (l : List ℚ) (h0 : l.sum ≠ 0) :
    (((l.map (fun a => round (a / l.sum * 100))).sum : ℤ) : ℚ) ≤
      100 + (l.length : ℚ) / 2 := by
  have h1 : (((l.map (fun a => round (a / l.sum * 100))).sum : ℤ) : ℚ)
      = (l.map (fun a => ((round (a / l.sum * 100) : ℤ) : ℚ))).sum := by
    rw [Int.cast_list_sum, List.map_map]
    rfl
  rw [h1]
  have h2 : (l.map (fun a => ((round (a / l.sum * 100) : ℤ) : ℚ))).sum ≤
      (l.map (fun a => a / l.sum * 100 + 1 / 2)).sum := by
    apply List.sum_le_sum
    intro a _
    exact round_cast_le _
  have h3 : (l.map (fun a => a / l.sum * 100 + 1 / 2)).sum
      = (l.map (fun a => a / l.sum * 100)).sum + l.length * (1 / 2) :=
    sum_map_add_const l _ _
  have h4 : (l.map (fun a => a / l.sum * 100)).sum = l.sum * (100 / l.sum) := by
    rw [show (fun a : ℚ => a / l.sum * 100) = (fun a : ℚ => a * (100 / l.sum)) from
      funext (fun a => by ring)]
    exact sum_map_mul_const l _
  have h5 : l.sum * (100 / l.sum) = 100 := by
    field_simp
  linarith

/-- C5 (amended): every returned category has strictly positive net amount;
each percentage is `round(amount / totalAcrossCategories * 100)` with the
total taken over the returned categories; the percentages sum to at most
`100 + k/2` for `k` returned categories (rounding can push the sum past
100, so the claimed bound of exactly 100 fails); and a zero total yields
the empty sequence. -/
theorem claim_C5 (st : Store) :
    (∀ e ∈ getExpensesByCategory st, 0 < e.amount) ∧
    (∀ e ∈ getExpensesByCategory st,
      e.percentage = round (e.amount /
        ((getExpensesByCategory st).map ExpensesByCategory.amount).sum * 100)) ∧
    ((((getExpensesByCategory st).map ExpensesByCategory.percentage).sum : ℤ) : ℚ) ≤
      100 + ((getExpensesByCategory st).length : ℚ) / 2 ∧
    (((expensesByCategoryRows st).map Prod.snd).sum = 0 →
      getExpensesByCategory st = []) := by
  classical
  set rows := List.insertionSort (fun a b : Option Category × ℚ => b.2 ≤ a.2)
    (expensesByCategoryRows st) with hrows
  have hperm : rows.Perm (expensesByCategoryRows st) := List.perm_insertionSort _ _
  have hsumeq : (rows.map Prod.snd).sum = ((expensesByCategoryRows st).map Prod.snd).sum :=
    (hperm.map Prod.snd).sum_eq
  by_cases htot : (rows.map Prod.snd).sum = 0
  · have hout : getExpensesByCategory st = [] := by
      simp only [getExpensesByCategory, ← hrows, htot]
      simp
    refine ⟨?_, ?_, ?_, fun _ => hout⟩
    · intro e he
      rw [hout] at he
      cases he
    · intro e he
      rw [hout] at he
      cases he
    · rw [hout]
      simp
  · have hout : getExpensesByCategory st = rows.map (fun r =>
        { categoryName := r.1.map Category.name
          categoryColor := r.1.map Category.color
          amount := r.2
          percentage := round (r.2 / (rows.map Prod.snd).sum * 100) }) := by
      simp only [getExpensesByCategory, ← hrows, htot]
      simp [htot]
    have hamts : (getExpensesByCategory st).map ExpensesByCategory.amount =
        rows.map Prod.snd := by
      rw [hout, List.map_map]
      rfl
    refine ⟨?_, ?_, ?_, ?_⟩
    · intro e he
      rw [hout] at he
      obtain ⟨r, hr, hre⟩ := List.mem_map.mp he
      have hr' : r ∈ expensesByCategoryRows st := hperm.mem_iff.mp hr
      have hpos : 0 < r.2 := by
        have := List.of_mem_filter hr'
        simpa using this
      rw [← hre]
      exact hpos
    · intro e he
      rw [hout] at he
      obtain ⟨r, hr, hre⟩ := List.mem_map.mp he
      rw [hamts, ← hre]
    · have hmap : (getExpensesByCategory st).map ExpensesByCategory.percentage =
          (rows.map Prod.snd).map (fun a => round (a / (rows.map Prod.snd).sum * 100)) := by
        rw [hout, List.map_map, List.map_map]
        rfl
      have hlen : (getExpensesByCategory st).length = (rows.map Prod.snd).length := by
        rw [hout]
        simp
      rw [hmap, hlen]
      exact sum_round_shares_le (rows.map Prod.snd) htot
    · intro h
      exact absurd (hsumeq.trans h) htot

/-- Counterexample for C5: with category nets 67, 67 and 66 the returned
percentages are 34, 34 and 33, whose sum 101 exceeds the claimed bound of
100. -/
theorem claim_C5_cx :
    100 < ((getExpensesByCategory st5cx).map ExpensesByCategory.percentage).sum := by
  with_unfolding_all decide

/-- Witness for C5: the first returned element of the counterexample store
is strictly positive and carries the rounded share of the returned total. -/
theorem claim_C5_witness :
    0 < eC5.amount ∧ eC5.percentage = round (eC5.amount /
      ((getExpensesByCategory st5cx).map ExpensesByCategory.amount).sum * 100) := by
  have h := claim_C5 st5cx
  exact ⟨h.1 eC5 (by with_unfolding_all decide),
         h.2.1 eC5 (by with_unfolding_all decide)⟩

/-! ## Claim C9 -/

/-- A successful transaction validation passed the positive-amount check. -/
theorem validateTransaction_ok_pos {env : JsEnv} {d : DynTx} {u : Unit}
    (h : validateTransaction env d = .ok u) :
    validatePositiveNumber d.amount "Amount" = .ok () := by
  unfold validateTransaction at h
  obtain ⟨u1, h1, h⟩ := except_bind_ok h
  obtain ⟨u2, h2, h⟩ := except_bind_ok h
  obtain ⟨u3, h3, h⟩ := except_bind_ok h
  obtain ⟨u4, h4, h⟩ := except_bind_ok h
  obtain ⟨u5, h5, h⟩ := except_bind_ok h
  cases u5
  exact h5

/-- C9 (amended): a transaction write with a zero or negative amount is
rejected with a validation error before the insert, a successful
transaction write stores the amount exactly as given (no clamping) and
writes no settlement; but a settlement write (`addSettlement`) performs no
amount validation at all — the row, including a zero or negative amount, is
always inserted as given. -/
theorem claim_C9 :
    (∀ (env : JsEnv) (st : Store) (t : NewTx), t.amount ≤ 0 →
      (createTransaction env st t).isOk = false) ∧
    (∀ (env : JsEnv) (st : Store) (t : NewTx) (st' : Store) (id : String),
      createTransaction env st t = .ok (st', id) →
      0 < t.amount ∧
      st'.transactions.map Tx.amount = st.transactions.map Tx.amount ++ [t.amount] ∧
      st'.settlements = st.settlements) ∧
    (∀ (env : JsEnv) (st : Store) (s : NewSettlement),
      addSettlement env st s = .ok ({ st with settlements := st.settlements ++
        [⟨env.freshSettlementId, s.compensated_transaction_id,
          s.compensation_transaction_id, s.amount⟩] }, env.freshSettlementId)) := by
  have key : ∀ (env : JsEnv) (st : Store) (t : NewTx) (st' : Store) (id : String),
      createTransaction env st t = .ok (st', id) →
      0 < t.amount ∧
      st'.transactions.map Tx.amount = st.transactions.map Tx.amount ++ [t.amount] ∧
      st'.settlements = st.settlements := by
    intro env st t st' id h
    unfold createTransaction at h
    obtain ⟨u, hv, h⟩ := except_bind_ok h
    have hpos : 0 < t.amount := by
      have hp := validateTransaction_ok_pos hv
      by_contra hle
      push_neg at hle
      simp [NewTx.dyn, validatePositiveNumber, hle] at hp
    have hst : st' = { st with transactions := st.transactions ++
        [⟨env.freshId, t.type_id, t.category_id, t.currency_id, t.amount,
          t.date, t.settlement_id, t.recurrence_id, t.note⟩] } := by
      injection h with h'
      exact (congrArg Prod.fst h').symm
    refine ⟨hpos, ?_, ?_⟩
    · rw [hst]
      simp
    · rw [hst]
  refine ⟨?_, key, fun env st s => rfl⟩
  intro env st t hle
  cases hres : createTransaction env st t with
  | error e => rfl
  | ok p =>
    exfalso
    have := (key env st t p.1 p.2 (by rw [hres])).1
    exact absurd hle (not_le.mpr this)

/-- Counterexample for C9: a settlement with amount 0 is not rejected — the
write succeeds and stores the zero amount as given. -/
theorem claim_C9_cx :
    addSettlement env0 st0 ⟨"t1", "t2", 0⟩ =
      .ok ({ st0 with settlements := [⟨"stl_1", "t1", "t2", 0⟩] }, "stl_1") := rfl

/-- Witness for C9: the negative-amount creation is rejected, the concrete
valid creation stores amount 12 unchanged, and a concrete settlement write
goes through unvalidated. -/
theorem claim_C9_witness :
    ((createTransaction env0 st0 badTx).isOk = false) ∧
    (0 < goodTx.amount ∧
      stGood.transactions.map Tx.amount = st0.transactions.map Tx.amount ++ [goodTx.amount] ∧
      stGood.settlements = st0.settlements) ∧
    (addSettlement env0 st0 ⟨"a", "b", 3⟩ = .ok ({ st0 with settlements :=
      st0.settlements ++ [⟨"stl_1", "a", "b", 3⟩] }, "stl_1")) :=
  ⟨claim_C9.1 env0 st0 badTx (by decide),
   claim_C9.2.1 env0 st0 goodTx stGood "uuid-1" (by with_unfolding_all rfl),
   claim_C9.2.2 env0 st0 ⟨"a", "b", 3⟩⟩

/-! ## Claim C6 -/

/-- C6 (code bug): the transactions table routes every update bag through
`buildSafeUpdateClause`, so an unknown field name fails closed with the
invalid-column error before any statement is built; but
`CategoryRepository.update` builds its SET clause directly from the bag's
field names with no allow-list check — the unknown field `evil_column` is
passed straight through into the statement `evil_column = ?` instead of
failing, contradicting the claimed per-table allow-list gate (and the
`category` allow-list of `ALLOWED_SCHEMAS`, which does not contain
`evil_column`). -/
theorem claim_C6_bug :
    (transactionRepoUpdate env0 st6 "t1" [("evil_column", .str "x")] =
      .error "Invalid column 'evil_column' for table 'transactions'") ∧
    (categoryRepoUpdate st6 "food" [("evil_column", .str "x")] =
      .ok (some ("evil_column = ?", [.str "x", .str "food"]))) ∧
    buildSafeUpdateClause "category" [("evil_column", .str "x")] =
      .error "Invalid column 'evil_column' for table 'category'" :=
  ⟨rfl, rfl, rfl⟩

/-! ## Association-list lemmas for the JS `Map` model -/

theorem mapHas_iff_mem_keys (m : JsMap) (k : ℤ) :
    mapHas m k = true ↔ k ∈ m.map Prod.fst := by
  induction m with
  | nil => simp [mapHas]
  | cons p ps ih =>
    by_cases hk : p.1 = k
    · simp [mapHas, hk]
    · have hb : (p.1 == k) = false := by simpa using hk
      simp only [mapHas, List.any_cons, hb, Bool.false_or, List.map_cons,
        List.mem_cons]
      rw [← mapHas]
      rw [ih]
      constructor
      · exact fun hh => Or.inr hh
      · rintro (hh | hh)
        · exact absurd hh.symm hk
        · exact hh

theorem mem_of_mapGet_eq_some {m : JsMap} {k : ℤ} {v : Tx}
    (h : mapGet m k = some v) : (k, v) ∈ m := by
  induction m with
  | nil => cases h
  | cons p ps ih =>
    by_cases hk : p.1 = k
    · have hb : (p.1 == k) = true := by simpa using hk
      simp only [mapGet, List.find?_cons, hb, Option.map_some'] at h
      have : p = (k, v) := by
        obtain ⟨p1, p2⟩ := p
        obtain ⟨rfl⟩ : p2 = v := by simpa using h
        simp only [Prod.mk.injEq, and_true]
        exact hk
      rw [← this]
      exact List.mem_cons_self p ps
    · have hb : (p.1 == k) = false := by simpa using hk
      simp only [mapGet, List.find?_cons, hb] at h
      exact List.mem_cons_of_mem p (ih h)

theorem mapGet_eq_some_of_mem {m : JsMap} (hn : (m.map Prod.fst).Nodup)
    {k : ℤ} {v : Tx} (hm : (k, v) ∈ m) : mapGet m k = some v := by
  induction m with
  | nil => cases hm
  | cons p ps ih =>
    rw [List.map_cons] at hn
    have hcons := List.nodup_cons.mp hn
    by_cases hk : p.1 = k
    · have hpv : p = (k, v) := by
        rcases List.mem_cons.mp hm with h | h
        · exact h.symm
        · exfalso
          apply hcons.1
          rw [hk]
          exact List.mem_map_of_mem Prod.fst h
      have hb : (p.1 == k) = true := by simpa using hk
      simp [mapGet, List.find?_cons, hb, hpv]
    · have hm' : (k, v) ∈ ps := by
        rcases List.mem_cons.mp hm with h | h
        · exact absurd (by rw [← h]) hk
        · exact h
      have hb : (p.1 == k) = false := by simpa using hk
      simp only [mapGet, List.find?_cons, hb]
      exact ih hcons.2 hm'

theorem mapGet_eq_none_iff (m : JsMap) (k : ℤ) :
    mapGet m k = none ↔ mapHas m k = false := by
  simp [mapGet, mapHas, List.find?_eq_none, List.any_eq_true]

theorem mapGet_isSome_of_mapHas {m : JsMap} {k : ℤ} (h : mapHas m k = true) :
    ∃ v, mapGet m k = some v := by
  cases hg : mapGet m k with
  | some v => exact ⟨v, rfl⟩
  | none => rw [(mapGet_eq_none_iff m k).mp hg] at h; cases h

theorem mapGet_ext {m n : JsMap} (hm : (m.map Prod.fst).Nodup)
    (hn : (n.map Prod.fst).Nodup) (h : ∀ p : ℤ × Tx, p ∈ m ↔ p ∈ n) (k : ℤ) :
    mapGet m k = mapGet n k := by
  cases hg : mapGet m k with
  | some v =>
    exact (mapGet_eq_some_of_mem hn ((h _).mp (mem_of_mapGet_eq_some hg))).symm
  | none =>
    cases hg' : mapGet n k with
    | none => rfl
    | some v =>
      have := mapGet_eq_some_of_mem hm ((h _).mpr (mem_of_mapGet_eq_some hg'))
      rw [hg] at this
      cases this

theorem perm_mapGet {m n : JsMap} (hm : (m.map Prod.fst).Nodup)
    (hp : m.Perm n) (k : ℤ) : mapGet m k = mapGet n k :=
  mapGet_ext hm (((hp.map Prod.fst).nodup_iff).mp hm) (fun _ => hp.mem_iff) k

theorem keys_mapSet (m : JsMap) (k : ℤ) (v : Tx) :
    (mapSet m k v).map Prod.fst =
      if mapHas m k then m.map Prod.fst else m.map Prod.fst ++ [k] := by
  unfold mapSet
  split
  · rw [List.map_map]
    apply List.map_congr_left
    intro p _
    by_cases hk : p.1 = k
    · simp [hk]
    · simp [hk]
  · simp

theorem nodup_keys_mapSet {m : JsMap} (hn : (m.map Prod.fst).Nodup)
    (k : ℤ) (v : Tx) : ((mapSet m k v).map Prod.fst).Nodup := by
  rw [keys_mapSet]
  split
  · exact hn
  · rename_i h
    have hk : k ∉ m.map Prod.fst := fun hmem =>
      h ((mapHas_iff_mem_keys m k).mpr hmem)
    simp [List.nodup_append, hn, hk]

theorem find?_replace_self (m : JsMap) (k : ℤ) (v : Tx)
    (h : m.any (fun p => p.1 == k) = true) :
    (m.map (fun p => if p.1 == k then (k, v) else p)).find?
      (fun p => p.1 == k) = some (k, v) := by
  induction m with
  | nil => cases h
  | cons p ps ih =>
    rw [List.map_cons]
    by_cases hk : p.1 = k
    · have hb : (p.1 == k) = true := by simpa using hk
      rw [if_pos hb]
      exact List.find?_cons_of_pos _ (by simp)
    · have hb : (p.1 == k) = false := by simpa using hk
      have h' : ps.any (fun p => p.1 == k) = true := by
        simpa [List.any_cons, hb] using h
      rw [if_neg (by simp [hb]), List.find?_cons_of_neg _ (by simp [hb])]
      exact ih h'

theorem find?_replace_ne (m : JsMap) (k : ℤ) (v : Tx) {k' : ℤ} (h : k' ≠ k) :
    (m.map (fun p => if p.1 == k then (k, v) else p)).find?
      (fun p => p.1 == k') = m.find? (fun p => p.1 == k') := by
  induction m with
  | nil => rfl
  | cons p ps ih =>
    rw [List.map_cons]
    by_cases hk : p.1 = k
    · have hb : (p.1 == k) = true := by simpa using hk
      have h1 : (k == k') = false := by simpa using fun hh => h hh.symm
      have h2 : (p.1 == k') = false := by
        rw [hk]
        exact h1
      rw [if_pos hb, List.find?_cons_of_neg _ (by simp [h1]),
        List.find?_cons_of_neg _ (by simp [h2])]
      exact ih
    · have hb : (p.1 == k) = false := by simpa using hk
      rw [if_neg (by simp [hb])]
      by_cases hk' : p.1 = k'
      · have h1 : (p.1 == k') = true := by simpa using hk'
        simp only [List.find?_cons, h1]
      · have h1 : (p.1 == k') = false := by simpa using hk'
        simp only [List.find?_cons, h1]
        exact ih

theorem mapGet_mapSet_self (m : JsMap) (k : ℤ) (v : Tx) :
    mapGet (mapSet m k v) k = some v := by
  unfold mapSet
  by_cases h : mapHas m k
  · rw [if_pos h]
    unfold mapGet
    rw [find?_replace_self m k v h]
    rfl
  · rw [if_neg h]
    have hnone : m.find? (fun p => p.1 == k) = none := by
      rw [List.find?_eq_none]
      intro p hp hbeq
      apply h
      unfold mapHas
      rw [List.any_eq_true]
      exact ⟨p, hp, hbeq⟩
    unfold mapGet
    rw [List.find?_append, hnone]
    simp [List.find?_cons]

theorem mapGet_mapSet_ne (m : JsMap) (k : ℤ) (v : Tx) {k' : ℤ} (h : k' ≠ k) :
    mapGet (mapSet m k v) k' = mapGet m k' := by
  unfold mapSet
  split
  · unfold mapGet
    rw [find?_replace_ne m k v h]
  · unfold mapGet
    rw [List.find?_append]
    have h2 : List.find? (fun p => p.1 == k') [(k, v)] = none := by
      have h1 : (k == k') = false := by simpa using fun hh => h hh.symm
      simp [List.find?_cons, h1]
    rw [h2]
    cases m.find? (fun p => p.1 == k') <;> rfl

theorem mem_mapDelete (m : JsMap) (k : ℤ) (p : ℤ × Tx) :
    p ∈ mapDelete m k ↔ p ∈ m ∧ p.1 ≠ k := by
  simp [mapDelete, List.mem_filter]

theorem nodup_keys_mapDelete {m : JsMap} (hn : (m.map Prod.fst).Nodup) (k : ℤ) :
    ((mapDelete m k).map Prod.fst).Nodup :=
  ((List.filter_sublist m).map Prod.fst).nodup hn

theorem mapHas_mapDelete_self (m : JsMap) (k : ℤ) :
    mapHas (mapDelete m k) k = false := by
  simp [mapHas, mapDelete, List.any_eq_true, List.mem_filter]

theorem mapGet_mapDelete_ne (m : JsMap) (k : ℤ) {k' : ℤ} (h : k' ≠ k) :
    mapGet (mapDelete m k) k' = mapGet m k' := by
  induction m with
  | nil => rfl
  | cons p ps ih =>
    unfold mapDelete mapGet at ih ⊢
    by_cases hk : p.1 = k
    · have hb : (p.1 != k) = false := by simpa using hk
      have h1 : (p.1 == k') = false := by
        rw [hk]
        simpa using fun hh => h hh.symm
      rw [List.filter_cons_of_neg (by simp [hb]),
        List.find?_cons_of_neg _ (by simp [h1])]
      exact ih
    · have hb : (p.1 != k) = true := by simpa using hk
      simp only [List.filter_cons, hb, if_true]
      by_cases hk' : p.1 = k'
      · have h1 : (p.1 == k') = true := by simpa using hk'
        simp only [List.find?_cons, h1]
      · have h1 : (p.1 == k') = false := by simpa using hk'
        simp only [List.find?_cons, h1]
        exact ih

/-! ## Rebuilding a map by folded `set` calls (the shift helpers) -/

theorem foldl_mapSet_append : ∀ (l acc : JsMap),
    (∀ p ∈ l, ∀ q ∈ acc, p.1 ≠ q.1) → (l.map Prod.fst).Nodup →
    l.foldl (fun m p => mapSet m p.1 p.2) acc = acc ++ l := by
  intro l
  induction l with
  | nil =>
    intro acc _ _
    simp
  | cons p ps ih =>
    intro acc hd hn
    rw [List.foldl_cons]
    have hfresh : mapHas acc p.1 = false := by
      by_contra hcon
      rw [Bool.not_eq_false, mapHas_iff_mem_keys] at hcon
      obtain ⟨q, hq, hqk⟩ := List.mem_map.mp hcon
      exact hd p (List.mem_cons_self p ps) q hq hqk.symm
    have hset : mapSet acc p.1 p.2 = acc ++ [p] := by
      unfold mapSet
      rw [if_neg (by simp [hfresh])]
    rw [List.map_cons] at hn
    have hcons := List.nodup_cons.mp hn
    rw [hset, ih (acc ++ [p]) ?_ hcons.2]
    · simp
    · intro r hr q hq
      rcases List.mem_append.mp hq with hq | hq
      · exact hd r (List.mem_cons_of_mem p hr) q hq
      · rw [List.mem_singleton.mp hq]
        intro hcon
        exact hcons.1 (hcon ▸ List.mem_map_of_mem Prod.fst hr)

theorem sorted_desc_perm (m : JsMap) :
    (List.insertionSort (fun a b : ℤ × Tx => b.1 ≤ a.1) m).Perm m :=
  List.perm_insertionSort _ m

theorem sorted_asc_perm (m : JsMap) :
    (List.insertionSort (fun a b : ℤ × Tx => a.1 ≤ b.1) m).Perm m :=
  List.perm_insertionSort _ m

theorem nodup_keys_sorted_desc {m : JsMap} (hn : (m.map Prod.fst).Nodup) :
    ((List.insertionSort (fun a b : ℤ × Tx => b.1 ≤ a.1) m).map Prod.fst).Nodup :=
  (((sorted_desc_perm m).map Prod.fst).nodup_iff).mpr hn

theorem nodup_keys_sorted_asc {m : JsMap} (hn : (m.map Prod.fst).Nodup) :
    ((List.insertionSort (fun a b : ℤ × Tx => a.1 ≤ b.1) m).map Prod.fst).Nodup :=
  (((sorted_asc_perm m).map Prod.fst).nodup_iff).mpr hn

theorem foldl_set_keymap (σ : ℤ × Tx → ℤ × Tx) (hσ : ∀ p, (σ p).2 = p.2) :
    ∀ (l acc : JsMap),
      l.foldl (fun m p => mapSet m (σ p).1 p.2) acc =
        (l.map σ).foldl (fun m p => mapSet m p.1 p.2) acc := by
  intro l
  induction l with
  | nil =>
    intro acc
    rfl
  | cons p ps ih =>
    intro acc
    rw [List.foldl_cons, List.map_cons, List.foldl_cons, hσ p]
    exact ih _

theorem keys_map_keymap (σk : ℤ → ℤ) (σ : ℤ × Tx → ℤ × Tx)
    (hσ : ∀ p, (σ p).1 = σk p.1) (l : JsMap) :
    (l.map σ).map Prod.fst = (l.map Prod.fst).map σk := by
  rw [List.map_map, List.map_map]
  apply List.map_congr_left
  intro p _
  exact hσ p

theorem shiftIndicesForward_eq (m : JsMap) (hn : (m.map Prod.fst).Nodup) :
    Cache.shiftIndicesForward m =
      (List.insertionSort (fun a b : ℤ × Tx => b.1 ≤ a.1) m).map
        (fun p => (p.1 + 1, p.2)) := by
  unfold Cache.shiftIndicesForward
  rw [show (fun (acc : JsMap) (p : ℤ × Tx) => mapSet acc (p.1 + 1) p.2) =
      (fun (acc : JsMap) (p : ℤ × Tx) =>
        mapSet acc ((fun q : ℤ × Tx => (q.1 + 1, q.2)) p).1 p.2) from rfl]
  rw [foldl_set_keymap (fun q => (q.1 + 1, q.2)) (fun p => rfl)]
  rw [foldl_mapSet_append]
  · simp
  · intro p _ q hq
    cases hq
  · rw [keys_map_keymap (fun k => k + 1) _ (fun p => rfl)]
    exact (nodup_keys_sorted_desc hn).map (fun a b => by omega)

theorem mapGet_map_shift_up (m : JsMap) (k : ℤ) :
    mapGet (m.map (fun p => (p.1 + 1, p.2))) k = mapGet m (k - 1) := by
  induction m with
  | nil => rfl
  | cons p ps ih =>
    rw [List.map_cons]
    by_cases hk : p.1 + 1 = k
    · have h1 : (((p.1 + 1 : ℤ), p.2).1 == k) = true := by simpa using hk
      have h2 : (p.1 == k - 1) = true := by
        simp only [beq_iff_eq]
        omega
      unfold mapGet
      simp only [List.find?_cons, h1, h2]
      rfl
    · have h1 : (((p.1 + 1 : ℤ), p.2).1 == k) = false := by simpa using hk
      have h2 : (p.1 == k - 1) = false := by
        simp only [beq_eq_false_iff_ne, ne_eq]
        omega
      unfold mapGet at ih ⊢
      simp only [List.find?_cons, h1, h2]
      exact ih

theorem mapGet_shiftForward (m : JsMap) (hn : (m.map Prod.fst).Nodup) (k : ℤ) :
    mapGet (Cache.shiftIndicesForward m) k = mapGet m (k - 1) := by
  rw [shiftIndicesForward_eq m hn, mapGet_map_shift_up]
  exact perm_mapGet (nodup_keys_sorted_desc hn) (sorted_desc_perm m) (k - 1)

theorem keys_shiftForward_pos (m : JsMap) (hn : (m.map Prod.fst).Nodup)
    (hpos : ∀ k ∈ m.map Prod.fst, 0 ≤ k) :
    ∀ k ∈ (Cache.shiftIndicesForward m).map Prod.fst, 1 ≤ k := by
  rw [shiftIndicesForward_eq m hn, keys_map_keymap (fun k => k + 1) _ (fun p => rfl)]
  intro k hk
  obtain ⟨k0, hk0, hke⟩ := List.mem_map.mp hk
  have hm : k0 ∈ m.map Prod.fst := ((sorted_desc_perm m).map Prod.fst).mem_iff.mp hk0
  have := hpos k0 hm
  omega

theorem nodup_keys_shiftForward (m : JsMap) (hn : (m.map Prod.fst).Nodup) :
    ((Cache.shiftIndicesForward m).map Prod.fst).Nodup := by
  rw [shiftIndicesForward_eq m hn, keys_map_keymap (fun k => k + 1) _ (fun p => rfl)]
  exact (nodup_keys_sorted_desc hn).map (fun a b => by omega)

theorem length_shiftForward (m : JsMap) (hn : (m.map Prod.fst).Nodup) :
    (Cache.shiftIndicesForward m).length = m.length := by
  rw [shiftIndicesForward_eq m hn, List.length_map]
  exact (sorted_desc_perm m).length_eq

theorem shiftIndicesBackward_eq (m : JsMap) (hn : (m.map Prod.fst).Nodup) (r : ℤ)
    (hr : mapHas m r = false) :
    Cache.shiftIndicesBackward m r =
      (List.insertionSort (fun a b : ℤ × Tx => a.1 ≤ b.1) m).map
        (fun p => if r < p.1 then (p.1 - 1, p.2) else p) := by
  unfold Cache.shiftIndicesBackward
  have hfun : (fun (acc : JsMap) (p : ℤ × Tx) =>
      if r < p.1 then mapSet acc (p.1 - 1) p.2 else mapSet acc p.1 p.2) =
      (fun (acc : JsMap) (p : ℤ × Tx) =>
        mapSet acc ((fun q : ℤ × Tx => if r < q.1 then (q.1 - 1, q.2) else q) p).1 p.2) := by
    funext acc p
    by_cases hp : r < p.1
    · simp [hp]
    · simp [hp]
  rw [hfun, foldl_set_keymap _ (fun p => by by_cases hp : r < p.1 <;> simp [hp])]
  rw [foldl_mapSet_append]
  · simp
  · intro p _ q hq
    cases hq
  · rw [keys_map_keymap (fun k => if r < k then k - 1 else k) _
      (fun p => by by_cases hp : r < p.1 <;> simp [hp])]
    apply List.Nodup.map_on ?_ (nodup_keys_sorted_asc hn)
    intro a ha b hb hab
    have hmemr : ∀ x, x ∈ ((List.insertionSort (fun a b : ℤ × Tx => a.1 ≤ b.1) m).map
        Prod.fst) → x ≠ r := by
      intro x hx he
      rw [he] at hx
      have : r ∈ m.map Prod.fst := ((sorted_asc_perm m).map Prod.fst).mem_iff.mp hx
      rw [← mapHas_iff_mem_keys] at this
      rw [hr] at this
      cases this
    have ha' := hmemr a ha
    have hb' := hmemr b hb
    by_cases h1 : r < a <;> by_cases h2 : r < b <;> simp [h1, h2] at hab <;> omega

theorem nodup_keys_shiftBackward (m : JsMap) (hn : (m.map Prod.fst).Nodup) (r : ℤ)
    (hr : mapHas m r = false) :
    ((Cache.shiftIndicesBackward m r).map Prod.fst).Nodup := by
  rw [shiftIndicesBackward_eq m hn r hr]
  rw [keys_map_keymap (fun k => if r < k then k - 1 else k) _
      (fun p => by by_cases hp : r < p.1 <;> simp [hp])]
  apply List.Nodup.map_on ?_ (nodup_keys_sorted_asc hn)
  intro a ha b hb hab
  have hmemr : ∀ x, x ∈ ((List.insertionSort (fun a b : ℤ × Tx => a.1 ≤ b.1) m).map
      Prod.fst) → x ≠ r := by
    intro x hx he
    rw [he] at hx
    have : r ∈ m.map Prod.fst := ((sorted_asc_perm m).map Prod.fst).mem_iff.mp hx
    rw [← mapHas_iff_mem_keys] at this
    rw [hr] at this
    cases this
  have ha' := hmemr a ha
  have hb' := hmemr b hb
  by_cases h1 : r < a <;> by_cases h2 : r < b <;> simp [h1, h2] at hab <;> omega

theorem mapGet_shiftBackward (m : JsMap) (hn : (m.map Prod.fst).Nodup) (r : ℤ)
    (hr : mapHas m r = false) (j : ℤ) :
    mapGet (Cache.shiftIndicesBackward m r) j =
      if j < r then mapGet m j else mapGet m (j + 1) := by
  have hnodup : ((Cache.shiftIndicesBackward m r).map Prod.fst).Nodup :=
    nodup_keys_shiftBackward m hn r hr
  rw [shiftIndicesBackward_eq m hn r hr] at hnodup ⊢
  by_cases hj : j < r
  · rw [if_pos hj]
    cases hg : mapGet m j with
    | some v =>
      have hm : (j, v) ∈ m := mem_of_mapGet_eq_some hg
      have hms := (sorted_asc_perm m).mem_iff.mpr hm
      have hmem : (j, v) ∈ (List.insertionSort (fun a b : ℤ × Tx => a.1 ≤ b.1) m).map
          (fun p => if r < p.1 then (p.1 - 1, p.2) else p) :=
        List.mem_map.mpr ⟨(j, v), hms, by simp [show ¬r < j by omega]⟩
      exact mapGet_eq_some_of_mem hnodup hmem
    | none =>
      cases hg2 : mapGet ((List.insertionSort (fun a b : ℤ × Tx => a.1 ≤ b.1) m).map
          (fun p => if r < p.1 then (p.1 - 1, p.2) else p)) j with
      | none => rfl
      | some v =>
        exfalso
        obtain ⟨p, hp, he⟩ := List.mem_map.mp (mem_of_mapGet_eq_some hg2)
        have hpm : p ∈ m := (sorted_asc_perm m).mem_iff.mp hp
        by_cases hrp : r < p.1
        · rw [if_pos hrp] at he
          have h1 : p.1 - 1 = j := congrArg Prod.fst he
          omega
        · rw [if_neg hrp] at he
          rw [he] at hpm
          rw [mapGet_eq_some_of_mem hn hpm] at hg
          cases hg
  · rw [if_neg hj]
    cases hg : mapGet m (j + 1) with
    | some v =>
      have hm : (j + 1, v) ∈ m := mem_of_mapGet_eq_some hg
      have hms := (sorted_asc_perm m).mem_iff.mpr hm
      have hmem : (j, v) ∈ (List.insertionSort (fun a b : ℤ × Tx => a.1 ≤ b.1) m).map
          (fun p => if r < p.1 then (p.1 - 1, p.2) else p) := by
        refine List.mem_map.mpr ⟨(j + 1, v), hms, ?_⟩
        rw [if_pos (by omega : r < (j + 1 : ℤ))]
        simp
      exact mapGet_eq_some_of_mem hnodup hmem
    | none =>
      cases hg2 : mapGet ((List.insertionSort (fun a b : ℤ × Tx => a.1 ≤ b.1) m).map
          (fun p => if r < p.1 then (p.1 - 1, p.2) else p)) j with
      | none => rfl
      | some v =>
        exfalso
        obtain ⟨p, hp, he⟩ := List.mem_map.mp (mem_of_mapGet_eq_some hg2)
        have hpm : p ∈ m := (sorted_asc_perm m).mem_iff.mp hp
        by_cases hrp : r < p.1
        · rw [if_pos hrp] at he
          have h1 : p.1 - 1 = j := congrArg Prod.fst he
          have h2 : p.2 = v := congrArg Prod.snd he
          have : p = (j + 1, v) := by
            obtain ⟨p1, p2⟩ := p
            simp only [Prod.mk.injEq]
            constructor
            · simp only at h1
              omega
            · exact h2
          rw [this] at hpm
          rw [mapGet_eq_some_of_mem hn hpm] at hg
          cases hg
        · rw [if_neg hrp] at he
          have h1 : p.1 = j := congrArg Prod.fst he
          have : p.1 = r := by omega
          have hhas : mapHas m r = true := by
            rw [mapHas_iff_mem_keys]
            rw [← this]
            exact List.mem_map_of_mem Prod.fst hpm
          rw [hr] at hhas
          cases hhas

/-! ## Claim C8 -/

/-- C8: on a cache with the JS `Map` key invariant, removing an id that is
resident returns `true`, removes that entry at its index `k`, leaves every
resident index below `k` unchanged, moves every resident index above `k`
down by one (so position `j ≥ k` now holds what was at `j + 1`), and
decrements `totalCount` by exactly one; removing an id that is not resident
returns `false` and leaves the cache exactly as it was. -/
theorem claim_C8 (c : Cache) (hwf : c.WF) (id : String) :
    ((∃ p ∈ c.cache, p.2.id = id) →
      (Cache.removeTransaction c id).1 = true ∧
      ∃ k : ℤ, mapHas c.cache k = true ∧
        (∃ v, mapGet c.cache k = some v ∧ v.id = id) ∧
        (∀ j : ℤ, j < k →
          mapGet (Cache.removeTransaction c id).2.cache j = mapGet c.cache j) ∧
        (∀ j : ℤ, k ≤ j →
          mapGet (Cache.removeTransaction c id).2.cache j = mapGet c.cache (j + 1)) ∧
        (Cache.removeTransaction c id).2.totalCount = c.totalCount - 1) ∧
    ((∀ p ∈ c.cache, p.2.id ≠ id) → Cache.removeTransaction c id = (false, c)) := by
  unfold Cache.WF at hwf
  constructor
  · intro hex
    have hfind : ∃ p, c.cache.find? (fun p => p.2.id == id) = some p := by
      obtain ⟨p, hp, hid⟩ := hex
      cases hf : c.cache.find? (fun p => p.2.id == id) with
      | some q => exact ⟨q, rfl⟩
      | none =>
        rw [List.find?_eq_none] at hf
        exact absurd (by simpa using hid) (by simpa using hf p hp)
    obtain ⟨p, hf⟩ := hfind
    have hrm : Cache.removeTransaction c id =
        (true, { c with
          cache := Cache.shiftIndicesBackward (mapDelete c.cache p.1) p.1,
          totalCount := c.totalCount - 1 }) := by
      unfold Cache.removeTransaction
      rw [hf]
    have hpm : p ∈ c.cache := List.mem_of_find?_eq_some hf
    have hpid : p.2.id = id := by simpa using List.find?_some hf
    have hdel_nodup := nodup_keys_mapDelete hwf p.1
    have hdel_has : mapHas (mapDelete c.cache p.1) p.1 = false :=
      mapHas_mapDelete_self _ _
    refine ⟨by rw [hrm], p.1, ?_,
      ⟨p.2, mapGet_eq_some_of_mem hwf hpm, hpid⟩, ?_, ?_, by rw [hrm]⟩
    · rw [mapHas_iff_mem_keys]
      exact List.mem_map_of_mem Prod.fst hpm
    · intro j hj
      rw [hrm]
      dsimp only
      rw [mapGet_shiftBackward _ hdel_nodup _ hdel_has j, if_pos hj]
      exact mapGet_mapDelete_ne _ _ (by omega)
    · intro j hj
      rw [hrm]
      dsimp only
      rw [mapGet_shiftBackward _ hdel_nodup _ hdel_has j, if_neg (by omega)]
      exact mapGet_mapDelete_ne _ _ (by omega)
  · intro hall
    unfold Cache.removeTransaction
    have hnone : c.cache.find? (fun p => p.2.id == id) = none := by
      rw [List.find?_eq_none]
      intro p hp
      simpa using hall p hp
    rw [hnone]

/-- Witness for C8: removing id `2` from the cache holding indices 1, 2, 5
succeeds, leaves index 1 alone, pulls the entry of index 5 down to 4, and
drops `totalCount` from 10 to 9; removing an absent id is the identity. -/
theorem claim_C8_witness :
    ((Cache.removeTransaction cw1 "2").2.cache = [(1, scTx 1), (4, scTx 5)]) ∧
    ((Cache.removeTransaction cw1 "2").1 = true ∧
      ∃ k : ℤ, mapHas cw1.cache k = true ∧
        (∃ v, mapGet cw1.cache k = some v ∧ v.id = "2") ∧
        (∀ j : ℤ, j < k →
          mapGet (Cache.removeTransaction cw1 "2").2.cache j = mapGet cw1.cache j) ∧
        (∀ j : ℤ, k ≤ j →
          mapGet (Cache.removeTransaction cw1 "2").2.cache j = mapGet cw1.cache (j + 1)) ∧
        (Cache.removeTransaction cw1 "2").2.totalCount = cw1.totalCount - 1) ∧
    (Cache.removeTransaction cw1 "77" = (false, cw1)) := by
  refine ⟨by decide, (claim_C8 cw1 (by unfold Cache.WF; decide) "2").1
    ⟨(2, scTx 2), by decide, rfl⟩, ?_⟩
  exact (claim_C8 cw1 (by unfold Cache.WF; decide) "77").2 (by decide)

/-! ## Claim C7 -/

theorem cleanupCache_of_le {c : Cache} (h : c.cache.length ≤ c.maxInMemoryItems) :
    Cache.cleanupCache c = c := by
  unfold Cache.cleanupCache
  rw [if_pos h]

/-- C7 (amended): provided the resident count is strictly below
`maxInMemoryItems` (so the trailing `cleanupCache` does not evict), the
resident indices are nonnegative, and `totalCount` is nonnegative, then
after `addTransaction(x)` with no index `getTransactions(0, 1)` returns
exactly `[x]`, every previously resident index `i` now holds its previous
entry at `i + 1`, and `totalCount` grew by exactly one.  (Without the
no-eviction bound the claim fails: the final cleanup can evict the shifted
entries or even the new head — see the counterexample.) -/
theorem claim_C7 (c : Cache) (hwf : c.WF)
    (hroom : c.cache.length < c.maxInMemoryItems)
    (htc : 0 ≤ c.totalCount)
    (hpos : ∀ k ∈ c.cache.map Prod.fst, 0 ≤ k) (t : Tx) :
    Cache.getTransactions (Cache.addTransaction c t none) 0 1 = [t] ∧
    (∀ (i : ℤ) (v : Tx), mapGet c.cache i = some v →
      mapGet (Cache.addTransaction c t none).cache (i + 1) = some v) ∧
    (Cache.addTransaction c t none).totalCount = c.totalCount + 1 := by
  unfold Cache.WF at hwf
  have hlen_shift : (Cache.shiftIndicesForward c.cache).length = c.cache.length :=
    length_shiftForward _ hwf
  have hhas0 : mapHas (Cache.shiftIndicesForward c.cache) 0 = false := by
    by_contra hcon
    rw [Bool.not_eq_false, mapHas_iff_mem_keys] at hcon
    have := keys_shiftForward_pos c.cache hwf hpos 0 hcon
    omega
  have hm1len : (mapSet (Cache.shiftIndicesForward c.cache) 0 t).length =
      c.cache.length + 1 := by
    unfold mapSet
    rw [if_neg (by simp [hhas0])]
    simp [hlen_shift]
  have hstep : Cache.addTransaction c t none =
      Cache.cleanupCache { c with
        cache := mapSet (Cache.shiftIndicesForward c.cache) 0 t,
        totalCount := c.totalCount + 1 } := rfl
  have hclean : Cache.cleanupCache { c with
      cache := mapSet (Cache.shiftIndicesForward c.cache) 0 t,
      totalCount := c.totalCount + 1 } =
      { c with cache := mapSet (Cache.shiftIndicesForward c.cache) 0 t,
               totalCount := c.totalCount + 1 } := by
    apply cleanupCache_of_le
    dsimp only
    omega
  rw [hstep, hclean]
  refine ⟨?_, ?_, rfl⟩
  · unfold Cache.getTransactions
    have hrange : intRange 0 1 = [0] := by decide
    rw [hrange]
    dsimp only
    have h0 : (decide ((0:ℤ) < c.totalCount + 1)) = true := by
      simp only [decide_eq_true_eq]
      omega
    simp only [List.filter_cons, List.filter_nil, h0, if_true, List.map_cons,
      List.map_nil]
    rw [mapGet_mapSet_self]
    rfl
  · intro i v hget
    have hi : 0 ≤ i :=
      hpos i (List.mem_map_of_mem Prod.fst (mem_of_mapGet_eq_some hget))
    dsimp only
    rw [mapGet_mapSet_ne _ _ _ (by omega : (i + 1 : ℤ) ≠ 0)]
    rw [mapGet_shiftForward _ hwf]
    rw [show (i + 1 - 1 : ℤ) = i from by omega]
    exact hget

/-- Counterexample for C7: on a full cache (`maxInMemoryItems = 4`, resident
indices 2..5) the front insert triggers eviction, which drops the shifted
image of index 5: it was resident before the call but index 6 is absent
after it, refuting the claim for arbitrary cache states. -/
theorem claim_C7_cx :
    mapGet c7pre.cache 5 = some (scTx 5) ∧
    mapGet c7post.cache 6 = none ∧
    c7post.totalCount = c7pre.totalCount + 1 := by
  decide

/-- Witness for C7: a cache with two residents and room for four — the
front insert places the new entry at 0, shifts index 1 to 2, and bumps
`totalCount`. -/
theorem claim_C7_witness :
    Cache.getTransactions (Cache.addTransaction cw2 (scTx 9) none) 0 1 = [scTx 9] ∧
    mapGet (Cache.addTransaction cw2 (scTx 9) none).cache (1 + 1) = some (scTx 1) ∧
    (Cache.addTransaction cw2 (scTx 9) none).totalCount = cw2.totalCount + 1 := by
  have h := claim_C7 cw2 (by unfold Cache.WF; decide) (by decide) (by decide)
    (by decide) (scTx 9)
  exact ⟨h.1, h.2.1 1 (scTx 1) (by decide), h.2.2⟩

/-! ## Claim C3 -/

theorem sortedIndices_perm (m : JsMap) :
    (Cache.sortedIndices m).Perm (m.map Prod.fst) :=
  List.perm_insertionSort _ _

theorem sortedIndices_length (m : JsMap) :
    (Cache.sortedIndices m).length = m.length := by
  rw [(sortedIndices_perm m).length_eq, List.length_map]

theorem sortPairs_perm (m : JsMap) : (sortPairs m).Perm m :=
  List.perm_insertionSort _ m

theorem sortPairs_length (m : JsMap) : (sortPairs m).length = m.length :=
  (sortPairs_perm m).length_eq

theorem sortedIndices_eq_sortPairs_keys (m : JsMap) :
    Cache.sortedIndices m = (sortPairs m).map Prod.fst := by
  have hs1 : List.Sorted (fun a b : ℤ => a ≤ b) (Cache.sortedIndices m) :=
    List.sorted_insertionSort _ _
  have hs2 : List.Sorted (fun a b : ℤ => a ≤ b) ((sortPairs m).map Prod.fst) := by
    rw [List.Sorted, List.pairwise_map]
    exact List.sorted_insertionSort (fun a b : ℤ × Tx => a.1 ≤ b.1) m
  exact List.eq_of_perm_of_sorted
    ((sortedIndices_perm m).trans ((sortPairs_perm m).map Prod.fst).symm) hs1 hs2

theorem sortPairs_lookup (m : JsMap) (hn : (m.map Prod.fst).Nodup) (i : ℕ) :
    ((Cache.sortedIndices m).get? i).bind
      (fun k => (mapGet m k).map (fun t => (k, t))) = (sortPairs m).get? i := by
  rw [sortedIndices_eq_sortPairs_keys m, List.get?_map]
  cases hp : (sortPairs m).get? i with
  | none => rfl
  | some p =>
    have hmem : p ∈ m := (sortPairs_perm m).mem_iff.mp (List.get?_mem hp)
    simp only [Option.map_some', Option.some_bind]
    rw [mapGet_eq_some_of_mem hn hmem]
    rfl

theorem range'_filterMap_get? :
    ∀ (n s : ℕ) (l : JsMap), s + n ≤ l.length →
      (List.range' s n).filterMap (fun i => l.get? i) = (l.drop s).take n := by
  intro n
  induction n with
  | zero =>
    intro s l _
    simp
  | succ n ih =>
    intro s l h
    have hs : s < l.length := by omega
    rw [List.range'_succ, List.filterMap_cons]
    rw [List.get?_eq_getElem?, List.getElem?_eq_getElem hs]
    rw [List.drop_eq_getElem_cons hs, List.take_succ_cons]
    rw [ih (s + 1) l (by omega)]

theorem cleanupCache_cache_eq (c : Cache) (hwf : c.WF)
    (hbig : c.maxInMemoryItems < c.cache.length) :
    (Cache.cleanupCache c).cache =
      ((sortPairs c.cache).drop (keepStartOf c)).take (keepCountOf c) := by
  unfold Cache.WF at hwf
  unfold Cache.cleanupCache
  rw [if_neg (by omega)]
  dsimp only
  rw [List.filterMap_congr (fun i _ => sortPairs_lookup c.cache hwf i)]
  have hlen : (Cache.sortedIndices c.cache).length = c.cache.length :=
    sortedIndices_length c.cache
  rw [hlen]
  have hks : c.cache.length / 2 - c.maxInMemoryItems / 2 = keepStartOf c := rfl
  rw [hks]
  have hcnt : (min ((c.cache.length : ℤ) - 1)
      ((keepStartOf c : ℤ) + (c.maxInMemoryItems : ℤ) - 1) + 1 -
        (keepStartOf c : ℤ)).toNat = keepCountOf c := by
    unfold keepCountOf keepStartOf
    omega
  rw [hcnt]
  apply range'_filterMap_get?
  rw [sortPairs_length]
  unfold keepCountOf keepStartOf
  omega

theorem cleanupCache_length (c : Cache) (hwf : c.WF) :
    (Cache.cleanupCache c).cache.length = min c.cache.length c.maxInMemoryItems := by
  by_cases h : c.cache.length ≤ c.maxInMemoryItems
  · rw [cleanupCache_of_le h, min_eq_left h]
  · push_neg at h
    rw [cleanupCache_cache_eq c hwf h, List.length_take, List.length_drop,
      sortPairs_length]
    unfold keepCountOf keepStartOf
    omega

/-- C3 (amended): whenever eviction runs (resident count exceeds
`maxInMemoryItems`) the kept entries are a contiguous slice of the
key-sorted resident entry list starting at `midPoint - maxInMemoryItems/2`
(clamped), of at most `maxInMemoryItems` entries containing the midpoint
position; after cleanup the resident count is `min(size, maxInMemoryItems)`
(so it never exceeds the budget, and eviction never drops a cache holding
at least `min(maxInMemoryItems, totalCount)` entries below that line).  In
the spec's scenario (budget 4, indices 0..9 in two batches) the kept
resident indices are the slice 2,3,5,6 of the prior sorted resident list,
centered on its midpoint 5 — a contiguous run of the sorted list, though
not consecutive integers. -/
theorem claim_C3 :
    (∀ c : Cache, c.WF →
      (Cache.cleanupCache c).cache.length = min c.cache.length c.maxInMemoryItems ∧
      (Cache.cleanupCache c).cache.length ≤ c.maxInMemoryItems ∧
      (min (c.maxInMemoryItems : ℤ) c.totalCount ≤ (c.cache.length : ℤ) →
        min (c.maxInMemoryItems : ℤ) c.totalCount ≤
          ((Cache.cleanupCache c).cache.length : ℤ)) ∧
      (c.maxInMemoryItems < c.cache.length →
        (Cache.cleanupCache c).cache =
          ((sortPairs c.cache).drop (keepStartOf c)).take (keepCountOf c) ∧
        keepCountOf c ≤ c.maxInMemoryItems ∧
        (0 < c.maxInMemoryItems →
          keepStartOf c ≤ c.cache.length / 2 ∧
          c.cache.length / 2 < keepStartOf c + keepCountOf c))) ∧
    (Cache.cleanupCache scPre = scCache2 ∧
      scCache2.cache.map Prod.fst = [2, 3, 5, 6] ∧
      scCache2.cache.length ≤ 4 ∧
      scCache2.cache = ((sortPairs scPre.cache).drop 2).take 4 ∧
      (Cache.sortedIndices scPre.cache).get?
        ((Cache.sortedIndices scPre.cache).length / 2) = some 5 ∧
      (5 : ℤ) ∈ scCache2.cache.map Prod.fst) := by
  constructor
  · intro c hwf
    refine ⟨cleanupCache_length c hwf, ?_, ?_, ?_⟩
    · rw [cleanupCache_length c hwf]
      omega
    · intro hge
      rw [cleanupCache_length c hwf]
      omega
    · intro hbig
      refine ⟨cleanupCache_cache_eq c hwf hbig, ?_, ?_⟩
      · unfold keepCountOf
        omega
      · intro hmax
        unfold keepCountOf keepStartOf
        omega
  · refine ⟨by decide, by decide, by decide, by decide, by decide, by decide⟩

/-- Counterexample for C3: in the spec's scenario the kept indices are
2, 3, 5, 6 — not a contiguous run of integers (the run is contiguous only
as a slice of the sorted resident list). -/
theorem claim_C3_cx :
    scCache2.cache.map Prod.fst = [2, 3, 5, 6] ∧
    ¬ List.Chain' (fun a b : ℤ => b = a + 1) (scCache2.cache.map Prod.fst) := by
  constructor
  · decide
  · rw [show scCache2.cache.map Prod.fst = [2, 3, 5, 6] from by decide]
    intro h
    simp only [List.chain'_cons, List.chain'_singleton, and_true] at h
    omega

/-- Witness for C3: the general part applied to the concrete pre-eviction
scenario state. -/
theorem claim_C3_witness :
    (Cache.cleanupCache scPre).cache.length =
      min scPre.cache.length scPre.maxInMemoryItems ∧
    (Cache.cleanupCache scPre).cache =
      ((sortPairs scPre.cache).drop (keepStartOf scPre)).take (keepCountOf scPre) ∧
    keepStartOf scPre ≤ scPre.cache.length / 2 ∧
    scPre.cache.length / 2 < keepStartOf scPre + keepCountOf scPre := by
  have h := claim_C3.1 scPre (by unfold Cache.WF; decide)
  obtain ⟨h1, _, _, h4⟩ := h
  have h5 := h4 (by decide)
  exact ⟨h1, h5.1, (h5.2.2 (by decide)).1, (h5.2.2 (by decide)).2⟩

/-! ## Claims C2 and C10: the missing-range scan -/

theorem missingInv_step_has_some {has : ℤ → Bool} {start lo r : ℤ}
    {acc : List (ℤ × ℤ)} (h : MissingInv has start lo (some r) acc)
    (hlo : has lo = true) :
    MissingInv has start (lo + 1) none (acc ++ [(r, lo - r)]) := by
  obtain ⟨hsl, hacc, hsort, hopen, _, hcov⟩ := h
  obtain ⟨hr1, hr2, hr3, hr4, hr5⟩ := hopen r rfl
  refine ⟨by omega, ?_, ?_, ?_, ?_, ?_⟩
  · intro p hp
    rcases List.mem_append.mp hp with hp | hp
    · obtain ⟨h1, h2, h3, h4, h5, h6⟩ := hacc p hp
      exact ⟨h1, h2, by omega, h4, h5, h6⟩
    · rw [List.mem_singleton.mp hp]
      refine ⟨by omega, hr1, by omega, ?_, ?_, hr4⟩
      · rw [show (r + (lo - r) : ℤ) = lo from by omega]
        exact hlo
      · intro i hi1 hi2
        exact hr3 i hi1 (by omega)
  · rw [List.pairwise_append]
    refine ⟨hsort, List.pairwise_singleton _ _, ?_⟩
    intro a ha b hb
    rw [List.mem_singleton.mp hb]
    exact hr5 a ha
  · intro r' hr'
    cases hr'
  · intro _
    right
    rw [show (lo + 1 - 1 : ℤ) = lo from by omega]
    exact hlo
  · intro i hi1 hi2 hi3
    left
    by_cases hilo : i < lo
    · rcases hcov i hi1 hilo hi3 with ⟨p, hp, hpi⟩ | ⟨r', hr', hri⟩
      · exact ⟨p, List.mem_append_left _ hp, hpi⟩
      · have heq : r = r' := by injection hr' with hh
        exact ⟨(r, lo - r), List.mem_append_right _ (List.mem_singleton_self _),
          by omega, by omega⟩
    · exfalso
      have : i = lo := by omega
      rw [this, hlo] at hi3
      cases hi3

theorem missingInv_step_has_none {has : ℤ → Bool} {start lo : ℤ}
    {acc : List (ℤ × ℤ)} (h : MissingInv has start lo none acc)
    (hlo : has lo = true) :
    MissingInv has start (lo + 1) none acc := by
  obtain ⟨hsl, hacc, hsort, _, hclosed, hcov⟩ := h
  refine ⟨by omega, ?_, hsort, ?_, ?_, ?_⟩
  · intro p hp
    obtain ⟨h1, h2, h3, h4, h5, h6⟩ := hacc p hp
    exact ⟨h1, h2, by omega, h4, h5, h6⟩
  · intro r' hr'
    cases hr'
  · intro _
    right
    rw [show (lo + 1 - 1 : ℤ) = lo from by omega]
    exact hlo
  · intro i hi1 hi2 hi3
    by_cases hilo : i < lo
    · rcases hcov i hi1 hilo hi3 with ⟨p, hp, hpi⟩ | ⟨r', hr', _⟩
      · exact Or.inl ⟨p, hp, hpi⟩
      · cases hr'
    · exfalso
      have : i = lo := by omega
      rw [this, hlo] at hi3
      cases hi3

theorem missingInv_step_absent_some {has : ℤ → Bool} {start lo r : ℤ}
    {acc : List (ℤ × ℤ)} (h : MissingInv has start lo (some r) acc)
    (hlo : has lo = false) :
    MissingInv has start (lo + 1) (some r) acc := by
  obtain ⟨hsl, hacc, hsort, hopen, _, hcov⟩ := h
  obtain ⟨hr1, hr2, hr3, hr4, hr5⟩ := hopen r rfl
  refine ⟨by omega, ?_, hsort, ?_, ?_, ?_⟩
  · intro p hp
    obtain ⟨h1, h2, h3, h4, h5, h6⟩ := hacc p hp
    exact ⟨h1, h2, by omega, h4, h5, h6⟩
  · intro r' hr'
    have heq : r = r' := by injection hr' with hh
    subst heq
    refine ⟨hr1, by omega, ?_, hr4, hr5⟩
    intro i hi1 hi2
    by_cases hilo : i < lo
    · exact hr3 i hi1 hilo
    · rw [show i = lo from by omega]
      exact hlo
  · intro hcon
    cases hcon
  · intro i hi1 hi2 hi3
    by_cases hilo : i < lo
    · exact hcov i hi1 hilo hi3
    · right
      exact ⟨r, rfl, by omega⟩

theorem missingInv_step_absent_none {has : ℤ → Bool} {start lo : ℤ}
    {acc : List (ℤ × ℤ)} (h : MissingInv has start lo none acc)
    (hlo : has lo = false) :
    MissingInv has start (lo + 1) (some lo) acc := by
  obtain ⟨hsl, hacc, hsort, _, hclosed, hcov⟩ := h
  refine ⟨by omega, ?_, hsort, ?_, ?_, ?_⟩
  · intro p hp
    obtain ⟨h1, h2, h3, h4, h5, h6⟩ := hacc p hp
    exact ⟨h1, h2, by omega, h4, h5, h6⟩
  · intro r' hr'
    have heq : lo = r' := by injection hr' with hh
    subst heq
    refine ⟨hsl, by omega, ?_, hclosed rfl, ?_⟩
    · intro i hi1 hi2
      rw [show i = lo from by omega]
      exact hlo
    · intro p hp
      exact (hacc p hp).2.2.1
  · intro hcon
    cases hcon
  · intro i hi1 hi2 hi3
    by_cases hilo : i < lo
    · rcases hcov i hi1 hilo hi3 with ⟨p, hp, hpi⟩ | ⟨r', hr', _⟩
      · exact Or.inl ⟨p, hp, hpi⟩
      · cases hr'
    · right
      exact ⟨lo, rfl, by omega⟩

theorem missingLoop_inv (has : ℤ → Bool) (start : ℤ) :
    ∀ (n : ℕ) (lo : ℤ) (rs : Option ℤ) (acc : List (ℤ × ℤ)),
      MissingInv has start lo rs acc →
      MissingInv has start (lo + n)
        (Cache.missingLoop has ((List.range n).map (fun i : ℕ => lo + (i : ℤ))) rs acc).2
        (Cache.missingLoop has ((List.range n).map (fun i : ℕ => lo + (i : ℤ))) rs acc).1 := by
  intro n
  induction n with
  | zero =>
    intro lo rs acc h
    simpa using h
  | succ n ih =>
    intro lo rs acc h
    have hlist : (List.range (n + 1)).map (fun i : ℕ => lo + (i : ℤ)) =
        lo :: (List.range n).map (fun i : ℕ => (lo + 1) + (i : ℤ)) := by
      rw [List.range_succ_eq_map, List.map_cons, List.map_map]
      refine congrArg₂ _ (by simp) ?_
      apply List.map_congr_left
      intro a _
      simp only [Function.comp]
      push_cast
      ring
    have harith : lo + ((n : ℤ) + 1) = (lo + 1) + (n : ℤ) := by ring
    rw [hlist]
    rw [show ((n + 1 : ℕ) : ℤ) = (n : ℤ) + 1 from by push_cast; ring, harith]
    by_cases hlo : has lo = true
    · cases rs with
      | some r =>
        rw [show Cache.missingLoop has (lo :: (List.range n).map (fun i : ℕ => (lo + 1) + (i : ℤ)))
            (some r) acc =
            Cache.missingLoop has ((List.range n).map (fun i : ℕ => (lo + 1) + (i : ℤ)))
              none (acc ++ [(r, lo - r)]) from by simp [Cache.missingLoop, hlo]]
        exact ih (lo + 1) none (acc ++ [(r, lo - r)]) (missingInv_step_has_some h hlo)
      | none =>
        rw [show Cache.missingLoop has (lo :: (List.range n).map (fun i : ℕ => (lo + 1) + (i : ℤ)))
            none acc =
            Cache.missingLoop has ((List.range n).map (fun i : ℕ => (lo + 1) + (i : ℤ)))
              none acc from by simp [Cache.missingLoop, hlo]]
        exact ih (lo + 1) none acc (missingInv_step_has_none h hlo)
    · rw [Bool.not_eq_true] at hlo
      cases rs with
      | some r =>
        rw [show Cache.missingLoop has (lo :: (List.range n).map (fun i : ℕ => (lo + 1) + (i : ℤ)))
            (some r) acc =
            Cache.missingLoop has ((List.range n).map (fun i : ℕ => (lo + 1) + (i : ℤ)))
              (some r) acc from by simp [Cache.missingLoop, hlo]]
        exact ih (lo + 1) (some r) acc (missingInv_step_absent_some h hlo)
      | none =>
        rw [show Cache.missingLoop has (lo :: (List.range n).map (fun i : ℕ => (lo + 1) + (i : ℤ)))
            none acc =
            Cache.missingLoop has ((List.range n).map (fun i : ℕ => (lo + 1) + (i : ℤ)))
              (some lo) acc from by simp [Cache.missingLoop, hlo]]
        exact ih (lo + 1) (some lo) acc (missingInv_step_absent_none h hlo)

theorem missingInv_init (has : ℤ → Bool) (start : ℤ) :
    MissingInv has start start none [] := by
  refine ⟨le_refl start, ?_, List.Pairwise.nil, ?_, fun _ => Or.inl rfl, ?_⟩
  · intro p hp
    cases hp
  · intro r hr
    cases hr
  · intro i h1 h2
    omega

theorem getMissingRanges_spec (c : Cache) (start count : ℤ) :
    (∀ p ∈ Cache.getMissingRanges c start count,
      1 ≤ p.2 ∧ start ≤ p.1 ∧ p.1 + p.2 ≤ start + count ∧
      (∀ i, p.1 ≤ i → i < p.1 + p.2 → mapHas c.cache i = false) ∧
      (p.1 = start ∨ mapHas c.cache (p.1 - 1) = true) ∧
      (p.1 + p.2 = start + count ∨ mapHas c.cache (p.1 + p.2) = true)) ∧
    (Cache.getMissingRanges c start count).Pairwise (fun a b => a.1 + a.2 < b.1) ∧
    (∀ i, start ≤ i → i < start + count → mapHas c.cache i = false →
      ∃ p ∈ Cache.getMissingRanges c start count, p.1 ≤ i ∧ i < p.1 + p.2) := by
  by_cases hc : count ≤ 0
  · have hout : Cache.getMissingRanges c start count = [] := by
      unfold Cache.getMissingRanges intRange
      rw [Int.toNat_of_nonpos hc]
      rfl
    rw [hout]
    refine ⟨?_, List.Pairwise.nil, ?_⟩
    · intro p hp
      cases hp
    · intro i h1 h2
      omega
  · push_neg at hc
    have hfin := missingLoop_inv (mapHas c.cache) start count.toNat start none []
      (missingInv_init (mapHas c.cache) start)
    have hcast : ((count.toNat : ℕ) : ℤ) = count := Int.toNat_of_nonneg (by omega)
    rw [hcast] at hfin
    rcases hloop : Cache.missingLoop (mapHas c.cache)
        ((List.range count.toNat).map (fun i : ℕ => start + (i : ℤ))) none [] with ⟨acc, rs⟩
    rw [hloop] at hfin
    obtain ⟨hsl, hacc, hsort, hopen, _, hcov⟩ := hfin
    dsimp only at hacc hsort hopen hcov
    cases rs with
    | none =>
      have hout : Cache.getMissingRanges c start count = acc := by
        unfold Cache.getMissingRanges
        rw [show intRange start count =
          (List.range count.toNat).map (fun i : ℕ => start + (i : ℤ)) from rfl]
        rw [hloop]
      rw [hout]
      refine ⟨?_, hsort, ?_⟩
      · intro p hp
        obtain ⟨h1, h2, h3, h4, h5, h6⟩ := hacc p hp
        exact ⟨h1, h2, by omega, h5, h6, Or.inr h4⟩
      · intro i hi1 hi2 hi3
        rcases hcov i hi1 hi2 hi3 with ⟨p, hp, hpi⟩ | ⟨r', hr', _⟩
        · exact ⟨p, hp, hpi⟩
        · cases hr'
    | some r =>
      obtain ⟨hr1, hr2, hr3, hr4, hr5⟩ := hopen r rfl
      have hout : Cache.getMissingRanges c start count =
          acc ++ [(r, start + count - 1 - r + 1)] := by
        unfold Cache.getMissingRanges
        rw [show intRange start count =
          (List.range count.toNat).map (fun i : ℕ => start + (i : ℤ)) from rfl]
        rw [hloop]
      rw [hout]
      refine ⟨?_, ?_, ?_⟩
      · intro p hp
        rcases List.mem_append.mp hp with hp | hp
        · obtain ⟨h1, h2, h3, h4, h5, h6⟩ := hacc p hp
          exact ⟨h1, h2, by omega, h5, h6, Or.inr h4⟩
        · rw [List.mem_singleton.mp hp]
          refine ⟨by omega, hr1, by omega, ?_, hr4, Or.inl (by ring)⟩
          intro i hi1 hi2
          exact hr3 i hi1 (by omega)
      · rw [List.pairwise_append]
        refine ⟨hsort, List.pairwise_singleton _ _, ?_⟩
        intro a ha b hb
        rw [List.mem_singleton.mp hb]
        exact hr5 a ha
      · intro i hi1 hi2 hi3
        rcases hcov i hi1 hi2 hi3 with ⟨p, hp, hpi⟩ | ⟨r', hr', hri⟩
        · exact ⟨p, List.mem_append_left _ hp, hpi⟩
        · have heq : r = r' := by injection hr' with hh
          exact ⟨(r, start + count - 1 - r + 1),
            List.mem_append_right _ (List.mem_singleton_self _), by omega, by omega⟩

theorem mem_intRange (start count i : ℤ) :
    i ∈ intRange start count ↔ start ≤ i ∧ i < start + count := by
  unfold intRange
  rw [List.mem_map]
  constructor
  · rintro ⟨n, hn, rfl⟩
    rw [List.mem_range] at hn
    omega
  · rintro ⟨h1, h2⟩
    refine ⟨(i - start).toNat, ?_, by omega⟩
    rw [List.mem_range]
    omega

theorem countP_interval_le_one (l : List (ℤ × ℤ))
    (hp : l.Pairwise (fun a b => a.1 + a.2 < b.1)) (i : ℤ) :
    l.countP (fun p => decide (p.1 ≤ i ∧ i < p.1 + p.2)) ≤ 1 := by
  induction l with
  | nil => simp
  | cons a as ih =>
    rw [List.pairwise_cons] at hp
    rw [List.countP_cons]
    by_cases hai : a.1 ≤ i ∧ i < a.1 + a.2
    · have hz : as.countP (fun p => decide (p.1 ≤ i ∧ i < p.1 + p.2)) = 0 := by
        rw [List.countP_eq_zero]
        intro b hb
        have hab := hp.1 b hb
        simp only [decide_eq_true_eq]
        rintro ⟨hb1, _⟩
        omega
      rw [hz]
      simp [hai]
    · have hd : (decide (a.1 ≤ i ∧ i < a.1 + a.2)) = false := by
        simp [hai]
      rw [hd]
      simpa using ih hp.2

/-- C2: the ranges returned by `getMissingRanges(start, count)` are exactly
the maximal contiguous runs of absent indices inside the requested window
`[start, start + count)` — each returned range is nonempty, lies in the
window, consists only of absent indices, and cannot be extended on either
side (its left neighbour is resident or the window edge, likewise its
right neighbour); the ranges are in strictly ascending order with no
overlap; and every index of the window is covered exactly once: a resident
index by no returned range, an absent index by exactly one.  The cache
state is arbitrary, so this holds after any prior operation sequence. -/
theorem claim_C2 (c : Cache) (start count : ℤ) :
    (∀ p ∈ Cache.getMissingRanges c start count,
      1 ≤ p.2 ∧ start ≤ p.1 ∧ p.1 + p.2 ≤ start + count ∧
      (∀ i, p.1 ≤ i → i < p.1 + p.2 → mapHas c.cache i = false) ∧
      (p.1 = start ∨ mapHas c.cache (p.1 - 1) = true) ∧
      (p.1 + p.2 = start + count ∨ mapHas c.cache (p.1 + p.2) = true)) ∧
    (Cache.getMissingRanges c start count).Pairwise (fun a b => a.1 + a.2 < b.1) ∧
    (∀ i, start ≤ i → i < start + count →
      (Cache.getMissingRanges c start count).countP
        (fun p => decide (p.1 ≤ i ∧ i < p.1 + p.2)) =
        if mapHas c.cache i then 0 else 1) := by
  obtain ⟨hsound, hpair, hcov⟩ := getMissingRanges_spec c start count
  refine ⟨hsound, hpair, ?_⟩
  intro i hi1 hi2
  by_cases hhas : mapHas c.cache i = true
  · rw [if_pos hhas, List.countP_eq_zero]
    intro p hp
    simp only [decide_eq_true_eq]
    rintro ⟨hp1, hp2⟩
    have habs := (hsound p hp).2.2.2.1 i hp1 hp2
    rw [hhas] at habs
    cases habs
  · rw [Bool.not_eq_true] at hhas
    rw [if_neg (by simp [hhas])]
    have hge : 0 < (Cache.getMissingRanges c start count).countP
        (fun p => decide (p.1 ≤ i ∧ i < p.1 + p.2)) := by
      rw [List.countP_pos]
      obtain ⟨p, hp, hpi⟩ := hcov i hi1 hi2 hhas
      exact ⟨p, hp, by simp only [decide_eq_true_eq]; exact hpi⟩
    have hle := countP_interval_le_one _ hpair i
    omega

/-- Witness for C2: on the cache with residents 1, 2, 5 the request
`[0, 7)` yields exactly the gaps `[0,1)`, `[3,5)`, `[6,7)`; the first gap's
indices are all absent, and index 3 is covered exactly once. -/
theorem claim_C2_witness :
    Cache.getMissingRanges cw1 0 7 = [(0, 1), (3, 2), (6, 1)] ∧
    (∀ i : ℤ, (0 : ℤ) ≤ i → i < (0 : ℤ) + 1 → mapHas cw1.cache i = false) ∧
    (Cache.getMissingRanges cw1 0 7).countP
      (fun p => decide (p.1 ≤ 3 ∧ (3 : ℤ) < p.1 + p.2)) =
      (if mapHas cw1.cache 3 then 0 else 1) := by
  refine ⟨by decide, ?_, (claim_C2 cw1 0 7).2.2 3 (by decide) (by decide)⟩
  have h := (claim_C2 cw1 0 7).1 (0, 1) (by decide)
  exact h.2.2.2.1

/-- C10: `isRangeCached(start, count)` is true exactly when
`getMissingRanges(start, count)` returns no ranges, and an empty request
(`count ≤ 0`) is trivially cached with no missing ranges. -/
theorem claim_C10 (c : Cache) (start count : ℤ) :
    (Cache.isRangeCached c start count = true ↔
      Cache.getMissingRanges c start count = []) ∧
    (count ≤ 0 → Cache.isRangeCached c start count = true ∧
      Cache.getMissingRanges c start count = []) := by
  obtain ⟨hsound, _, hcov⟩ := getMissingRanges_spec c start count
  constructor
  · constructor
    · intro hall
      by_contra hne
      obtain ⟨p, hp⟩ : ∃ p, p ∈ Cache.getMissingRanges c start count := by
        cases hq : Cache.getMissingRanges c start count with
        | nil => exact absurd hq hne
        | cons q qs => exact ⟨q, List.mem_cons_self _ _⟩
      obtain ⟨h1, h2, h3, h4, _, _⟩ := hsound p hp
      unfold Cache.isRangeCached at hall
      rw [List.all_eq_true] at hall
      have hmem : p.1 ∈ intRange start count :=
        (mem_intRange start count p.1).mpr ⟨h2, by omega⟩
      have hval := hall p.1 hmem
      rw [h4 p.1 (le_refl p.1) (by omega)] at hval
      cases hval
    · intro hempty
      unfold Cache.isRangeCached
      rw [List.all_eq_true]
      intro i hi
      rw [mem_intRange] at hi
      by_contra hcon
      rw [Bool.not_eq_true] at hcon
      obtain ⟨p, hp, _⟩ := hcov i hi.1 hi.2 hcon
      rw [hempty] at hp
      cases hp
  · intro hc
    have hrange : intRange start count = [] := by
      unfold intRange
      rw [Int.toNat_of_nonpos hc]
      rfl
    constructor
    · unfold Cache.isRangeCached
      rw [hrange]
      rfl
    · unfold Cache.getMissingRanges
      rw [hrange]
      rfl

/-- Witness for C10: the equivalence at a concrete cache and range, and the
empty-request clause at a negative count. -/
theorem claim_C10_witness :
    (Cache.isRangeCached cw1 1 2 = true ↔ Cache.getMissingRanges cw1 1 2 = []) ∧
    (Cache.isRangeCached cw1 4 (-2) = true ∧
      Cache.getMissingRanges cw1 4 (-2) = []) :=
  ⟨(claim_C10 cw1 1 2).1, (claim_C10 cw1 4 (-2)).2 (by decide)⟩

end MyFinTracker
